import Mathlib

/-!
Shallow embedding of the supersonic projector core
(src/supersonic/base/infrastructure/projector.cc) together with the
schema operations it relies on.  Functions implemented in projector.cc
are translated directly from that file; operations only declared there
(TupleSchema, the BoundSingleSourceProjector members, the bound
expression referred-name collection) are modelled from the spec and say
so in their doc comments.
-/

namespace Supersonic

/-- The closed enumeration of scalar types (spec section 6, supersonic.proto). -/
inductive DataType where
  | STRING | INT32 | INT64 | UINT64 | DATETIME | DOUBLE | BOOL
  | BINARY | UINT32 | FLOAT | DATE | DATA_TYPE | NULL_TYPE | ENUM
deriving DecidableEq, Repr

/-- Nullability of an attribute. -/
inductive Nullability where
  | NULLABLE | NOT_NULLABLE
deriving DecidableEq, Repr

/-- Attribute = (name, type, nullability) (spec section 3). -/
structure Attribute where
  name : String
  type : DataType
  nullability : Nullability
deriving DecidableEq, Repr

/-- Default attribute used to totalize out-of-range accesses (the C++
code CHECK-fails on such accesses; theorems restrict to in-range uses). -/
def defaultAttr : Attribute := ⟨"", .STRING, .NOT_NULLABLE⟩

instance : Inhabited Attribute := ⟨defaultAttr⟩

/-- Error codes of the failure channel (spec section 7). -/
inductive ErrorCode where
  | ATTRIBUTE_MISSING | ATTRIBUTE_EXISTS | ATTRIBUTE_COUNT_MISMATCH
  | TYPE_MISMATCH | MEMORY_EXCEEDED | EVALUATION_ERROR
deriving DecidableEq, Repr

/-- A TupleSchema is an ordered sequence of attributes (spec section 3). -/
abbrev TupleSchema := List Attribute

/-- The list of attribute names of a schema, in order. -/
def TupleSchema.names (s : TupleSchema) : List String := s.map Attribute.name

/-- Modelled from the spec: `TupleSchema::add_attribute` (tuple_schema.h is
not under src/).  Spec section 4.1: rejects duplicate names, never a silent
overwrite; on rejection the schema is unchanged.  Returned as
(succeeded, new schema), mirroring the C++ bool return plus mutation. -/
def TupleSchema.addAttribute (s : TupleSchema) (a : Attribute) : Bool × TupleSchema :=
  if a.name ∈ TupleSchema.names s then (false, s) else (true, s ++ [a])

/-- Modelled from the spec: `TupleSchema::LookupAttributePosition`
(tuple_schema.h is not under src/).  Spec section 4.1: lookup by name
returns the position or a sentinel "not found" (modelled as `none`). -/
def TupleSchema.lookupAttributePosition (s : TupleSchema) (nm : String) : Option Nat :=
  s.findIdx? (fun a => a.name == nm)

/-- A well-formed schema: attribute names are unique (spec section 3:
"Names within a schema must be unique"), and additionally nonempty.  The
nonempty-name clause is NOT required by the spec; it is the proviso of
the amended decomposition claims.  It matters because `AddAs` defaults an
empty alias to the source attribute's name (projector.cc, lines 36-39)
and `DecomposeNth` re-adds entries while discarding the AddAs result
(lines 380-394), so with an empty-named source attribute a defaulted name
can collide and an outer entry is silently dropped — see the
decomposition counterexamples below. -/
def TupleSchema.WF (s : TupleSchema) : Prop :=
  (TupleSchema.names s).Nodup ∧ ∀ a ∈ s, a.name ≠ ""

instance (s : TupleSchema) : Decidable (TupleSchema.WF s) := by
  unfold TupleSchema.WF; infer_instance

/-- Bound single-source projector: source schema, result schema and the
projection vector `proj[i] = source position` (spec section 3). -/
structure BoundSingleSourceProjector where
  source : TupleSchema
  resultSchema : TupleSchema
  proj : List Nat
deriving DecidableEq, Repr

namespace BoundSingleSourceProjector

/-- Fresh bound single-source projector over a source schema. -/
def empty (s : TupleSchema) : BoundSingleSourceProjector := ⟨s, [], []⟩

/-- The output attribute appended by `AddAs pos al`: named `al`, with the
type and nullability of the source attribute at `pos`. -/
def mkAttr (p : BoundSingleSourceProjector) (pos : Nat) (al : String) : Attribute :=
  ⟨al, (p.source.getD pos defaultAttr).type, (p.source.getD pos defaultAttr).nullability⟩

/-- Modelled from the spec: `BoundSingleSourceProjector::AddAs`
(declared in projector.h, which is not under src/).  Appends one output
attribute named `al`, copying type and nullability from the source
attribute at `pos`; returns false on a duplicate result name (spec
sections 3 and 4.6).  A position outside the source schema is a
programming error in the C++ code (a CHECK failure, spec section 7);
it is modelled as a failed add. -/
def AddAs (p : BoundSingleSourceProjector) (pos : Nat) (al : String) :
    Bool × BoundSingleSourceProjector :=
  if pos < p.source.length then
    match TupleSchema.addAttribute p.resultSchema (p.mkAttr pos al) with
    | (false, _) => (false, p)
    | (true, rs) => (true, ⟨p.source, rs, p.proj ++ [pos]⟩)
  else (false, p)

/-- Modelled from the spec: `BoundSingleSourceProjector::Add` (projector.h,
not under src/): adds the source attribute at `pos` under its own name. -/
def Add (p : BoundSingleSourceProjector) (pos : Nat) :
    Bool × BoundSingleSourceProjector :=
  p.AddAs pos ((p.source.getD pos defaultAttr).name)

/-- The type/nullability soundness invariant of a bound single-source
projector (spec section 8, property 1): `proj` and the result schema have
the same length, every `proj[i]` is a valid source index, and result
attribute `i` has the type and nullability of source attribute `proj[i]`. -/
def Sound (p : BoundSingleSourceProjector) : Prop :=
  p.proj.length = p.resultSchema.length ∧
  ∀ (i pos : Nat), p.proj[i]? = some pos → pos < p.source.length ∧
    ∃ ra sa : Attribute, p.resultSchema[i]? = some ra ∧ p.source[pos]? = some sa ∧
      ra.type = sa.type ∧ ra.nullability = sa.nullability

/-- Applying a bound single-source projector to an input view, modelled
as one column value per source attribute: result column `i` is input
column `proj[i]` (spec sections 2 and 4.6). -/
def apply {α : Type} [Inhabited α] (p : BoundSingleSourceProjector)
    (input : List α) : List α :=
  p.proj.map (fun pos => input.getD pos default)

end BoundSingleSourceProjector

/-- Bound multi-source projector: the source schemas, the result schema,
the projection map `proj[i] = (source index, source position)` and the
reverse multimap from source attributes to result positions
(spec section 3).  The reverse multimap is modelled as the list of its
insertions; key-equal entries keep insertion order, as equal_range does. -/
structure BoundMultiSourceProjector where
  sources : List TupleSchema
  resultSchema : TupleSchema
  projectionMap : List (Nat × Nat)
  reverseProjectionMap : List ((Nat × Nat) × Nat)
deriving DecidableEq, Repr

namespace BoundMultiSourceProjector

/-- Fresh bound multi-source projector over the given source schemas. -/
def empty (schemas : List TupleSchema) : BoundMultiSourceProjector :=
  ⟨schemas, [], [], []⟩

/-- The output attribute appended by `AddAs si ap al` (projector.cc, lines
34-42): an empty alias defaults the name to the source attribute's name;
type and nullability are copied from the source attribute. -/
def effAttr (p : BoundMultiSourceProjector) (si ap : Nat) (al : String) : Attribute :=
  ⟨if al = "" then ((p.sources.getD si []).getD ap defaultAttr).name else al,
   ((p.sources.getD si []).getD ap defaultAttr).type,
   ((p.sources.getD si []).getD ap defaultAttr).nullability⟩

/-- `BoundMultiSourceProjector::AddAs` (projector.cc, lines 29-52): an
empty alias defaults the output name to the source attribute's name; the
new attribute copies the source type and nullability; on a duplicate
result name the call returns false and the projector is unchanged.  The
reverse-map entry is inserted with the result position (the projection
map's length before the append).  The C++ code CHECKs that the indices
are in range (a programming error otherwise, spec section 7); that
precondition violation is modelled as a failed add. -/
def AddAs (p : BoundMultiSourceProjector) (si ap : Nat) (al : String) :
    Bool × BoundMultiSourceProjector :=
  if si < p.sources.length ∧ ap < (p.sources.getD si []).length then
    match TupleSchema.addAttribute p.resultSchema (p.effAttr si ap al) with
    | (false, _) => (false, p)
    | (true, rs) =>
      (true, ⟨p.sources, rs, p.projectionMap ++ [(si, ap)],
              p.reverseProjectionMap ++ [((si, ap), p.projectionMap.length)]⟩)
  else (false, p)

/-- `BoundMultiSourceProjector::ProjectedAttributePositions`
(projector.cc, lines 54-62): the result positions projecting
(source index, position), via equal_range on the reverse multimap. -/
def ProjectedAttributePositions (p : BoundMultiSourceProjector) (si ap : Nat) :
    List Nat :=
  (p.reverseProjectionMap.filter (fun e => decide (e.1 = (si, ap)))).map (·.2)

/-- `BoundMultiSourceProjector::IsAttributeProjected` (projector.cc,
lines 64-71): find on the reverse multimap. -/
def IsAttributeProjected (p : BoundMultiSourceProjector) (si ap : Nat) : Bool :=
  p.reverseProjectionMap.any (fun e => decide (e.1 = (si, ap)))

/-- `BoundMultiSourceProjector::NumberOfProjectionsForAttribute`
(projector.cc, lines 73-78): count on the reverse multimap. -/
def NumberOfProjectionsForAttribute (p : BoundMultiSourceProjector) (si ap : Nat) :
    Nat :=
  (p.reverseProjectionMap.filter (fun e => decide (e.1 = (si, ap)))).length

/-- `BoundMultiSourceProjector::GetSingleSourceProjector` (projector.cc,
lines 80-90): the slice of the outputs coming from one source.  The C++
loop discards the bool returned by AddAs, so a failed add leaves the
accumulator unchanged. -/
def GetSingleSourceProjector (p : BoundMultiSourceProjector) (si : Nat) :
    BoundSingleSourceProjector :=
  (p.projectionMap.zip p.resultSchema).foldl
    (fun acc ea =>
      if ea.1.1 = si then (acc.AddAs ea.1.2 ea.2.name).2 else acc)
    (BoundSingleSourceProjector.empty (p.sources.getD si []))

/-- The generalized type/nullability soundness invariant (spec section 3):
the result schema and projection map have the same length, and every
projection-map entry names a valid source attribute whose type and
nullability equal those of the corresponding result attribute. -/
def TypeSound (p : BoundMultiSourceProjector) : Prop :=
  p.resultSchema.length = p.projectionMap.length ∧
  ∀ (i : Nat) (e : Nat × Nat), p.projectionMap[i]? = some e →
    e.1 < p.sources.length ∧
    ∃ ra sa : Attribute, p.resultSchema[i]? = some ra ∧ (p.sources.getD e.1 [])[e.2]? = some sa ∧
      ra.type = sa.type ∧ ra.nullability = sa.nullability

/-- Applying a bound multi-source projector to one input view per source:
result column `i` is column `pos` of input `si` where
`projectionMap[i] = (si, pos)` (spec sections 2 and 4.6). -/
def apply {α : Type} [Inhabited α] (p : BoundMultiSourceProjector)
    (inputs : List (List α)) : List α :=
  p.projectionMap.map (fun e => (inputs.getD e.1 []).getD e.2 default)

/-- The bound multi-source projectors constructible in the C++ API: an
empty projector over well-formed schemas, extended by successful AddAs
calls (a failed AddAs leaves the projector unchanged, so these are all
reachable states). -/
inductive Reachable : BoundMultiSourceProjector → Prop where
  | init (schemas : List TupleSchema) (h : ∀ s ∈ schemas, TupleSchema.WF s) :
      Reachable (empty schemas)
  | step {p q : BoundMultiSourceProjector} {si ap : Nat} {al : String} :
      Reachable p → p.AddAs si ap al = (true, q) → Reachable q

end BoundMultiSourceProjector

/-- Intermediate state of `DecomposeNth` (projector.cc, lines 364-398):
the uniqualizer map, the outer projector under construction and the inner
single-source projector under construction. -/
structure DecompState where
  uniq : List (Nat × Nat)
  newP : BoundMultiSourceProjector
  newNth : BoundSingleSourceProjector

/-- One iteration of the `DecomposeNth` loop (projector.cc, lines
377-396).  Entries of other sources are re-added unchanged; entries of
source `k` are rewritten through the uniqualizer to positions of the
inner projector.  The C++ code discards the bools returned by AddAs and
Add, so a failed add leaves that component unchanged. -/
def decomposeStep (k : Nat) (st : DecompState) (e : (Nat × Nat) × String) :
    DecompState :=
  if e.1.1 ≠ k then
    { st with newP := (st.newP.AddAs e.1.1 e.1.2 e.2).2 }
  else
    match st.uniq.lookup e.1.2 with
    | some position => { st with newP := (st.newP.AddAs k position e.2).2 }
    | none =>
      let position := st.newNth.resultSchema.length
      { uniq := (e.1.2, position) :: st.uniq,
        newNth := (st.newNth.Add e.1.2).2,
        newP := (st.newP.AddAs k position e.2).2 }

/-- `DecomposeNth` (projector.cc, lines 364-398): factor a multi-source
projector into an outer projector (whose source-`k` entries index into
the inner projector's result) and an inner single-source projector over
source `k`.  The C++ loop runs over result positions, reading
`projectionMap[i]` and the result attribute name at `i`; the rebuilt
schema vector equals the original sources. -/
def DecomposeNth (k : Nat) (p : BoundMultiSourceProjector) :
    BoundMultiSourceProjector × BoundSingleSourceProjector :=
  let st0 : DecompState :=
    ⟨[], BoundMultiSourceProjector.empty p.sources,
     BoundSingleSourceProjector.empty (p.sources.getD k [])⟩
  let st := (p.projectionMap.zip (TupleSchema.names p.resultSchema)).foldl
    (decomposeStep k) st0
  (st.newP, st.newNth)

/-- The unbound single-source projector variants (spec section 4.5;
projector.cc keeps them as subclasses of SingleSourceProjector). -/
inductive SingleSourceProjector where
  | namedAttribute (name : String)
  | positionedAttribute (position : Int)
  | allAttributes (pfx : String)
  | compound (children : List SingleSourceProjector)
  | renamingProjector (aliases : List String) (child : SingleSourceProjector)
deriving Repr

/-- Outcome of binding: success, a typed failure (THROW), or a CHECK
failure (programming-error abort, spec section 7). -/
inductive BindRes where
  | ok (p : BoundSingleSourceProjector)
  | err (e : ErrorCode)
  | abort
deriving DecidableEq, Repr

/-- Whether a binding outcome is a success. -/
def BindRes.isOk : BindRes → Bool
  | .ok _ => true
  | _ => false

/-- The inner loop of `CompoundSingleSourceProjector::Bind` (projector.cc,
lines 249-262): transfer a component's (position, name) entries into the
accumulator; the first duplicate name throws ATTRIBUTE_EXISTS (modelled
as `none`). -/
def addAllThrow (acc : BoundSingleSourceProjector) :
    List (Nat × String) → Option BoundSingleSourceProjector
  | [] => some acc
  | (pos, al) :: rest =>
    match acc.AddAs pos al with
    | (true, acc') => addAllThrow acc' rest
    | (false, _) => none

/-- The copy loop of `RenamingProjector::Bind` (projector.cc, lines
142-145): re-add every child position under its alias; each AddAs is
CHECKed, so a failure aborts. -/
def addAllChecked (acc : BoundSingleSourceProjector) :
    List (Nat × String) → BindRes
  | [] => .ok acc
  | (pos, al) :: rest =>
    match acc.AddAs pos al with
    | (true, acc') => addAllChecked acc' rest
    | (false, _) => .abort

mutual

/-- `Bind` of each unbound single-source projector variant (projector.cc:
NamedAttributeProjector lines 95-108, RenamingProjector lines 124-147,
PositionedAttributeProjector lines 178-190, AllAttributesProjector lines
211-225, CompoundSingleSourceProjector lines 241-265).  A negative
position passes the PositionedAttributeProjector range check and reaches
`Add`, whose contract requires a valid index (projector.h, not under
src/; spec section 7 treats the violation as a programming error): that
path is modelled as an abort. -/
def SingleSourceProjector.Bind : SingleSourceProjector → TupleSchema → BindRes
  | .namedAttribute nm, s =>
    match TupleSchema.lookupAttributePosition s nm with
    | none => .err .ATTRIBUTE_MISSING
    | some pos =>
      match (BoundSingleSourceProjector.empty s).Add pos with
      | (true, p) => .ok p
      | (false, _) => .abort
  | .positionedAttribute i, s =>
    if (s.length : Int) ≤ i then .err .ATTRIBUTE_COUNT_MISMATCH
    else if i < 0 then .abort
    else
      match (BoundSingleSourceProjector.empty s).Add i.toNat with
      | (true, p) => .ok p
      | (false, _) => .abort
  | .allAttributes pfx, s =>
    .ok ((List.range s.length).foldl
      (fun acc i =>
        if pfx = "" then (acc.Add i).2
        else (acc.AddAs i (pfx ++ (s.getD i defaultAttr).name)).2)
      (BoundSingleSourceProjector.empty s))
  | .renamingProjector aliases child, s =>
    match child.Bind s with
    | .err e => .err e
    | .abort => .abort
    | .ok bc =>
      if aliases.length = bc.resultSchema.length then
        addAllChecked (BoundSingleSourceProjector.empty s) (bc.proj.zip aliases)
      else .err .ATTRIBUTE_COUNT_MISMATCH
  | .compound cs, s =>
    SingleSourceProjector.bindChildren cs s (BoundSingleSourceProjector.empty s)

/-- The loop of `CompoundSingleSourceProjector::Bind` over its children
(projector.cc, lines 245-263). -/
def SingleSourceProjector.bindChildren :
    List SingleSourceProjector → TupleSchema → BoundSingleSourceProjector → BindRes
  | [], _, acc => .ok acc
  | c :: cs, s, acc =>
    match c.Bind s with
    | .err e => .err e
    | .abort => .abort
    | .ok comp =>
      match addAllThrow acc (comp.proj.zip (TupleSchema.names comp.resultSchema)) with
      | some acc' => SingleSourceProjector.bindChildren cs s acc'
      | none => .err .ATTRIBUTE_EXISTS

end

/-- Outcome of binding a multi-source projector. -/
inductive BindMultiRes where
  | ok (p : BoundMultiSourceProjector)
  | err (e : ErrorCode)
  | abort
deriving DecidableEq, Repr

/-- Transfer loop of `CompoundMultiSourceProjector::Bind` (projector.cc,
lines 335-349): add a component's entries for source `idx`; the first
duplicate name throws ATTRIBUTE_EXISTS. -/
def addAllThrowMulti (idx : Nat) (acc : BoundMultiSourceProjector) :
    List (Nat × String) → Option BoundMultiSourceProjector
  | [] => some acc
  | (pos, al) :: rest =>
    match acc.AddAs idx pos al with
    | (true, acc') => addAllThrowMulti idx acc' rest
    | (false, _) => none

/-- `CompoundMultiSourceProjector::Bind` (projector.cc, lines 325-353):
bind each (source index, single-source projector) pair against its
designated schema and append its produced attributes. -/
def CompoundMultiSourceProjector.Bind (projectors : List (Nat × SingleSourceProjector))
    (sourceSchemas : List TupleSchema) : BindMultiRes :=
  go projectors (BoundMultiSourceProjector.empty sourceSchemas)
where
  /-- The fold over the component projectors. -/
  go : List (Nat × SingleSourceProjector) → BoundMultiSourceProjector → BindMultiRes
    | [], acc => .ok acc
    | (idx, sp) :: rest, acc =>
      match sp.Bind (sourceSchemas.getD idx []) with
      | .err e => .err e
      | .abort => .abort
      | .ok comp =>
        match addAllThrowMulti idx acc
            (comp.proj.zip (TupleSchema.names comp.resultSchema)) with
        | some acc' => go rest acc'
        | none => .err .ATTRIBUTE_EXISTS

/-- Bound expression trees, restricted to the kinds the projection tests
exercise: attribute references, compound expressions and projections
(spec section 4.7). -/
inductive BoundExpr where
  | attrRef (name : String)
  | compound (children : List BoundExpr)
  | projection (projector : BoundMultiSourceProjector) (children : List BoundExpr)

mutual

/-- Modelled from the spec: `referred_attribute_names` of a bound
expression (projecting_bound_expressions.cc is not under src/; only its
test is).  Spec section 4.7: "the transitive union over children; leaf
attribute references contribute their name; projections contribute the
referred names of their sources". -/
def BoundExpr.referredAttributeNames : BoundExpr → List String
  | .attrRef nm => [nm]
  | .compound cs => BoundExpr.referredOfList cs
  | .projection _ cs => BoundExpr.referredOfList cs

/-- Union (as concatenation) of the referred names of a list of bound
expressions. -/
def BoundExpr.referredOfList : List BoundExpr → List String
  | [] => []
  | c :: cs => c.referredAttributeNames ++ BoundExpr.referredOfList cs

end

/-! ### Basic lemmas about schema and projector updates -/

theorem TupleSchema.names_append (s t : TupleSchema) :
    TupleSchema.names (s ++ t) = TupleSchema.names s ++ TupleSchema.names t :=
  List.map_append _ _ _

theorem TupleSchema.addAttribute_of_not_mem {s : TupleSchema} {a : Attribute}
    (h : a.name ∉ TupleSchema.names s) :
    TupleSchema.addAttribute s a = (true, s ++ [a]) := by
  simp [TupleSchema.addAttribute, h]

theorem TupleSchema.addAttribute_of_mem {s : TupleSchema} {a : Attribute}
    (h : a.name ∈ TupleSchema.names s) :
    TupleSchema.addAttribute s a = (false, s) := by
  simp [TupleSchema.addAttribute, h]

namespace BoundMultiSourceProjector

theorem addAs_success {p : BoundMultiSourceProjector} {si ap : Nat} {al : String}
    (h1 : si < p.sources.length) (h2 : ap < (p.sources.getD si []).length)
    (h3 : (p.effAttr si ap al).name ∉ TupleSchema.names p.resultSchema) :
    p.AddAs si ap al =
      (true, ⟨p.sources, p.resultSchema ++ [p.effAttr si ap al],
              p.projectionMap ++ [(si, ap)],
              p.reverseProjectionMap ++ [((si, ap), p.projectionMap.length)]⟩) := by
  rw [AddAs, if_pos ⟨h1, h2⟩]
  rw [show (TupleSchema.addAttribute p.resultSchema _) = (true, _) from
    TupleSchema.addAttribute_of_not_mem h3]

theorem addAs_true_inv {p q : BoundMultiSourceProjector} {si ap : Nat} {al : String}
    (h : p.AddAs si ap al = (true, q)) :
    si < p.sources.length ∧ ap < (p.sources.getD si []).length ∧
    (p.effAttr si ap al).name ∉ TupleSchema.names p.resultSchema ∧
    q = ⟨p.sources, p.resultSchema ++ [p.effAttr si ap al],
         p.projectionMap ++ [(si, ap)],
         p.reverseProjectionMap ++ [((si, ap), p.projectionMap.length)]⟩ := by
  by_cases hv : si < p.sources.length ∧ ap < (p.sources.getD si []).length
  · refine ⟨hv.1, hv.2, ?_⟩
    by_cases hm : (p.effAttr si ap al).name ∈ TupleSchema.names p.resultSchema
    · rw [AddAs, if_pos hv] at h
      rw [show (TupleSchema.addAttribute p.resultSchema _) = (false, p.resultSchema) from
        TupleSchema.addAttribute_of_mem hm] at h
      exact absurd (congrArg Prod.fst h) (by simp)
    · refine ⟨hm, ?_⟩
      rw [addAs_success hv.1 hv.2 hm] at h
      exact (Prod.mk.injEq _ _ _ _ ▸ h).2.symm
  · rw [AddAs, if_neg hv] at h
    exact absurd (congrArg Prod.fst h) (by simp)

theorem addAs_snd_of_fst_false {p : BoundMultiSourceProjector} {si ap : Nat}
    {al : String} (h : (p.AddAs si ap al).1 = false) : (p.AddAs si ap al).2 = p := by
  rw [AddAs] at h ⊢
  by_cases hv : si < p.sources.length ∧ ap < (p.sources.getD si []).length
  · rw [if_pos hv] at h ⊢
    by_cases hm : (p.effAttr si ap al).name ∈ TupleSchema.names p.resultSchema
    · rw [show (TupleSchema.addAttribute p.resultSchema _) = (false, p.resultSchema) from
        TupleSchema.addAttribute_of_mem hm]
    · rw [show (TupleSchema.addAttribute p.resultSchema _) = (true, _) from
        TupleSchema.addAttribute_of_not_mem hm] at h
      simp at h
  · rw [if_neg hv]

theorem addAs_sources (p : BoundMultiSourceProjector) (si ap : Nat) (al : String) :
    (p.AddAs si ap al).2.sources = p.sources := by
  rw [AddAs]
  by_cases hv : si < p.sources.length ∧ ap < (p.sources.getD si []).length
  · rw [if_pos hv]
    by_cases hm : (p.effAttr si ap al).name ∈ TupleSchema.names p.resultSchema
    · rw [show (TupleSchema.addAttribute p.resultSchema _) = (false, p.resultSchema) from
        TupleSchema.addAttribute_of_mem hm]
    · rw [show (TupleSchema.addAttribute p.resultSchema _) = (true, _) from
        TupleSchema.addAttribute_of_not_mem hm]
  · rw [if_neg hv]

end BoundMultiSourceProjector

namespace BoundSingleSourceProjector

theorem addAs_ok {p : BoundSingleSourceProjector} {pos : Nat} {al : String}
    (h1 : pos < p.source.length)
    (h2 : al ∉ TupleSchema.names p.resultSchema) :
    p.AddAs pos al =
      (true, ⟨p.source, p.resultSchema ++ [p.mkAttr pos al], p.proj ++ [pos]⟩) := by
  rw [AddAs, if_pos h1]
  rw [show (TupleSchema.addAttribute p.resultSchema (p.mkAttr pos al)) = (true, _) from
    TupleSchema.addAttribute_of_not_mem h2]

theorem addAs_ok_inv {p q : BoundSingleSourceProjector} {pos : Nat} {al : String}
    (h : p.AddAs pos al = (true, q)) :
    pos < p.source.length ∧ al ∉ TupleSchema.names p.resultSchema ∧
    q = ⟨p.source, p.resultSchema ++ [p.mkAttr pos al], p.proj ++ [pos]⟩ := by
  by_cases h1 : pos < p.source.length
  · refine ⟨h1, ?_⟩
    by_cases h2 : al ∈ TupleSchema.names p.resultSchema
    · rw [AddAs, if_pos h1] at h
      rw [show (TupleSchema.addAttribute p.resultSchema (p.mkAttr pos al)) = (false, p.resultSchema) from
        TupleSchema.addAttribute_of_mem h2] at h
      exact absurd (congrArg Prod.fst h) (by simp)
    · refine ⟨h2, ?_⟩
      rw [addAs_ok h1 h2] at h
      exact (Prod.mk.injEq _ _ _ _ ▸ h).2.symm
  · rw [AddAs, if_neg h1] at h
    exact absurd (congrArg Prod.fst h) (by simp)

theorem addAs_unchanged_of_false {p : BoundSingleSourceProjector} {pos : Nat}
    {al : String} (h : (p.AddAs pos al).1 = false) : (p.AddAs pos al).2 = p := by
  rw [AddAs] at h ⊢
  by_cases h1 : pos < p.source.length
  · rw [if_pos h1] at h ⊢
    by_cases h2 : al ∈ TupleSchema.names p.resultSchema
    · rw [show (TupleSchema.addAttribute p.resultSchema (p.mkAttr pos al)) = (false, p.resultSchema) from
        TupleSchema.addAttribute_of_mem h2]
    · rw [show (TupleSchema.addAttribute p.resultSchema (p.mkAttr pos al)) = (true, _) from
        TupleSchema.addAttribute_of_not_mem h2] at h
      simp at h
  · rw [if_neg h1]

theorem addAs_source (p : BoundSingleSourceProjector) (pos : Nat) (al : String) :
    (p.AddAs pos al).2.source = p.source := by
  rw [AddAs]
  by_cases h1 : pos < p.source.length
  · rw [if_pos h1]
    by_cases h2 : al ∈ TupleSchema.names p.resultSchema
    · rw [show (TupleSchema.addAttribute p.resultSchema (p.mkAttr pos al)) = (false, p.resultSchema) from
        TupleSchema.addAttribute_of_mem h2]
    · rw [show (TupleSchema.addAttribute p.resultSchema (p.mkAttr pos al)) = (true, _) from
        TupleSchema.addAttribute_of_not_mem h2]
  · rw [if_neg h1]

end BoundSingleSourceProjector

/-! ### Soundness preservation -/

namespace BoundSingleSourceProjector

theorem sound_empty (s : TupleSchema) : (empty s).Sound := by
  refine ⟨rfl, ?_⟩
  intro i pos h
  simp [empty] at h

theorem sound_addAs_snd {p : BoundSingleSourceProjector} (hp : p.Sound)
    (pos : Nat) (al : String) : (p.AddAs pos al).2.Sound := by
  cases hb : (p.AddAs pos al).1 with
  | false => rw [addAs_unchanged_of_false hb]; exact hp
  | true =>
    have heq : p.AddAs pos al = (true, (p.AddAs pos al).2) := by rw [← hb]
    obtain ⟨h1, h2, hq⟩ := addAs_ok_inv heq
    rw [hq]
    obtain ⟨hlen, hsound⟩ := hp
    refine ⟨by simp [hlen], ?_⟩
    intro i x hx
    by_cases hi : i < p.proj.length
    · rw [List.getElem?_append_left hi] at hx
      obtain ⟨hvalid, ra, sa, hra, hsa, ht, hn⟩ := hsound i x hx
      exact ⟨hvalid, ra, sa,
        by rw [List.getElem?_append_left (List.getElem?_eq_some.mp hra).1]; exact hra,
        hsa, ht, hn⟩
    · rw [List.getElem?_append_right (Nat.le_of_not_lt hi)] at hx
      have hx0 : i - p.proj.length = 0 ∧ x = pos := by
        cases hj : i - p.proj.length with
        | zero =>
          rw [hj] at hx
          simp only [List.getElem?_cons_zero, Option.some.injEq] at hx
          exact ⟨rfl, hx.symm⟩
        | succ n =>
          rw [hj] at hx
          simp at hx
      obtain ⟨hi0, rfl⟩ := hx0
      have hieq : i = p.proj.length := by omega
      subst hieq
      refine ⟨h1, p.mkAttr x al, p.source.get ⟨x, h1⟩, ?_, ?_, ?_, ?_⟩
      · show (p.resultSchema ++ [p.mkAttr x al])[p.proj.length]? = some (p.mkAttr x al)
        rw [hlen]
        simp
      · exact List.getElem?_eq_getElem h1
      · simp [mkAttr, List.getD_eq_getElem?_getD, List.getElem?_eq_getElem h1]
      · simp [mkAttr, List.getD_eq_getElem?_getD, List.getElem?_eq_getElem h1]

theorem sound_add_snd {p : BoundSingleSourceProjector} (hp : p.Sound)
    (pos : Nat) : (p.Add pos).2.Sound :=
  sound_addAs_snd hp _ _

theorem add_source (p : BoundSingleSourceProjector) (pos : Nat) :
    (p.Add pos).2.source = p.source :=
  addAs_source _ _ _

/-- Folding any sequence of operations each of which is either a no-op or
the state of an AddAs preserves soundness and the source schema. -/
theorem foldl_preserves_sound {β : Type} (f : BoundSingleSourceProjector → β → BoundSingleSourceProjector)
    (hf : ∀ acc b, f acc b = acc ∨ ∃ pos al, f acc b = (acc.AddAs pos al).2) :
    ∀ (l : List β) (acc : BoundSingleSourceProjector), acc.Sound →
      (l.foldl f acc).Sound ∧ (l.foldl f acc).source = acc.source
  | [], _, h => ⟨h, rfl⟩
  | b :: l, acc, h => by
    rw [List.foldl_cons]
    rcases hf acc b with he | ⟨pos, al, he⟩
    · rw [he]
      exact foldl_preserves_sound f hf l acc h
    · have ih := foldl_preserves_sound f hf l (f acc b) (he ▸ sound_addAs_snd h pos al)
      refine ⟨ih.1, ih.2.trans ?_⟩
      rw [he, addAs_source]

end BoundSingleSourceProjector

theorem addAllThrow_sound :
    ∀ (entries : List (Nat × String)) (acc acc' : BoundSingleSourceProjector),
      acc.Sound → addAllThrow acc entries = some acc' →
      acc'.Sound ∧ acc'.source = acc.source
  | [], acc, acc', h, he => by
    simp [addAllThrow] at he
    exact he ▸ ⟨h, rfl⟩
  | (pos, al) :: rest, acc, acc', h, he => by
    rcases h2 : acc.AddAs pos al with ⟨b, acc2⟩
    cases b with
    | false => simp [addAllThrow, h2] at he
    | true =>
      simp only [addAllThrow, h2] at he
      have hs : acc2.Sound := by
        have := BoundSingleSourceProjector.sound_addAs_snd h pos al
        rwa [h2] at this
      have ih := addAllThrow_sound rest acc2 acc' hs he
      refine ⟨ih.1, ih.2.trans ?_⟩
      have := BoundSingleSourceProjector.addAs_source acc pos al
      rwa [h2] at this

theorem addAllChecked_sound :
    ∀ (entries : List (Nat × String)) (acc p : BoundSingleSourceProjector),
      acc.Sound → addAllChecked acc entries = .ok p →
      p.Sound ∧ p.source = acc.source
  | [], acc, p, h, he => by
    simp [addAllChecked] at he
    exact he ▸ ⟨h, rfl⟩
  | (pos, al) :: rest, acc, p, h, he => by
    rcases h2 : acc.AddAs pos al with ⟨b, acc2⟩
    cases b with
    | false => simp [addAllChecked, h2] at he
    | true =>
      simp only [addAllChecked, h2] at he
      have hs : acc2.Sound := by
        have := BoundSingleSourceProjector.sound_addAs_snd h pos al
        rwa [h2] at this
      have ih := addAllChecked_sound rest acc2 p hs he
      refine ⟨ih.1, ih.2.trans ?_⟩
      have := BoundSingleSourceProjector.addAs_source acc pos al
      rwa [h2] at this

theorem bindChildren_sound :
    ∀ (cs : List SingleSourceProjector) (s : TupleSchema)
      (acc p : BoundSingleSourceProjector), acc.Sound → acc.source = s →
      SingleSourceProjector.bindChildren cs s acc = .ok p →
      p.Sound ∧ p.source = s
  | [], s, acc, p, h, hsrc, he => by
    simp [SingleSourceProjector.bindChildren] at he
    exact he ▸ ⟨h, hsrc⟩
  | c :: cs, s, acc, p, h, hsrc, he => by
    rw [SingleSourceProjector.bindChildren] at he
    rcases hcb : c.Bind s with comp | e | _ <;> rw [hcb] at he <;> dsimp only at he
    · rcases hat : addAllThrow acc (comp.proj.zip (TupleSchema.names comp.resultSchema)) with
        _ | acc' <;> rw [hat] at he <;> dsimp only at he
      · cases he
      · have hs := addAllThrow_sound _ acc acc' h hat
        exact bindChildren_sound cs s acc' p hs.1 (hs.2.trans hsrc) he
    · cases he
    · cases he

/-- Every successful Bind of an unbound single-source projector variant
produces a sound bound projector over the given source schema. -/
theorem bind_sound (ssp : SingleSourceProjector) (s : TupleSchema)
    (p : BoundSingleSourceProjector) (he : ssp.Bind s = .ok p) :
    p.Sound ∧ p.source = s := by
  cases ssp with
  | namedAttribute nm =>
    rw [SingleSourceProjector.Bind] at he
    rcases hl : TupleSchema.lookupAttributePosition s nm with _ | pos <;> rw [hl] at he <;>
      dsimp only at he
    · cases he
    · rcases ha : (BoundSingleSourceProjector.empty s).Add pos with ⟨b, p2⟩
      rw [ha] at he
      cases b with
      | false => simp at he
      | true =>
        dsimp only at he
        cases he
        have hs := BoundSingleSourceProjector.sound_add_snd
          (BoundSingleSourceProjector.sound_empty s) pos
        have hsrc := BoundSingleSourceProjector.add_source
          (BoundSingleSourceProjector.empty s) pos
        rw [ha] at hs hsrc
        exact ⟨hs, hsrc⟩
  | positionedAttribute i =>
    rw [SingleSourceProjector.Bind] at he
    by_cases hge : (s.length : Int) ≤ i
    · rw [if_pos hge] at he; cases he
    · rw [if_neg hge] at he
      by_cases hneg : i < 0
      · rw [if_pos hneg] at he; cases he
      · rw [if_neg hneg] at he
        rcases ha : (BoundSingleSourceProjector.empty s).Add i.toNat with ⟨b, p2⟩
        rw [ha] at he
        cases b with
        | false => simp at he
        | true =>
          dsimp only at he
          cases he
          have hs := BoundSingleSourceProjector.sound_add_snd
            (BoundSingleSourceProjector.sound_empty s) i.toNat
          have hsrc := BoundSingleSourceProjector.add_source
            (BoundSingleSourceProjector.empty s) i.toNat
          rw [ha] at hs hsrc
          exact ⟨hs, hsrc⟩
  | allAttributes pfx =>
    rw [SingleSourceProjector.Bind] at he
    cases he
    refine BoundSingleSourceProjector.foldl_preserves_sound _ ?_ _ _
      (BoundSingleSourceProjector.sound_empty s)
    intro acc i
    by_cases hp : pfx = ""
    · right
      exact ⟨i, _, by rw [if_pos hp]; rfl⟩
    · right
      exact ⟨i, _, by rw [if_neg hp]⟩
  | renamingProjector aliases child =>
    rw [SingleSourceProjector.Bind] at he
    rcases hcb : child.Bind s with bc | e | _ <;> rw [hcb] at he <;> dsimp only at he
    · by_cases hl : aliases.length = bc.resultSchema.length
      · rw [if_pos hl] at he
        have := addAllChecked_sound _ _ _ (BoundSingleSourceProjector.sound_empty s) he
        exact ⟨this.1, this.2⟩
      · rw [if_neg hl] at he; cases he
    · cases he
    · cases he
  | compound cs =>
    rw [SingleSourceProjector.Bind] at he
    exact bindChildren_sound cs s _ p (BoundSingleSourceProjector.sound_empty s) rfl he

namespace BoundMultiSourceProjector

theorem typeSound_empty (schemas : List TupleSchema) : (empty schemas).TypeSound := by
  refine ⟨rfl, ?_⟩
  intro i e h
  simp [empty] at h

theorem typeSound_addAs_snd {p : BoundMultiSourceProjector} (hp : p.TypeSound)
    (si ap : Nat) (al : String) : (p.AddAs si ap al).2.TypeSound := by
  cases hb : (p.AddAs si ap al).1 with
  | false => rw [addAs_snd_of_fst_false hb]; exact hp
  | true =>
    have heq : p.AddAs si ap al = (true, (p.AddAs si ap al).2) := by rw [← hb]
    obtain ⟨h1, h2, h3, hq⟩ := addAs_true_inv heq
    rw [hq]
    obtain ⟨hlen, hsound⟩ := hp
    refine ⟨by simp [hlen], ?_⟩
    intro i e hx
    by_cases hi : i < p.projectionMap.length
    · rw [List.getElem?_append_left hi] at hx
      obtain ⟨hvalid, ra, sa, hra, hsa, ht, hn⟩ := hsound i e hx
      exact ⟨hvalid, ra, sa,
        by rw [List.getElem?_append_left (List.getElem?_eq_some.mp hra).1]; exact hra,
        hsa, ht, hn⟩
    · rw [List.getElem?_append_right (Nat.le_of_not_lt hi)] at hx
      have hx0 : i - p.projectionMap.length = 0 ∧ e = (si, ap) := by
        cases hj : i - p.projectionMap.length with
        | zero =>
          rw [hj] at hx
          simp only [List.getElem?_cons_zero, Option.some.injEq] at hx
          exact ⟨rfl, hx.symm⟩
        | succ n =>
          rw [hj] at hx
          simp at hx
      obtain ⟨hi0, rfl⟩ := hx0
      have hieq : i = p.projectionMap.length := by omega
      subst hieq
      refine ⟨h1, p.effAttr si ap al, (p.sources.getD si []).get ⟨ap, h2⟩, ?_, ?_, ?_, ?_⟩
      · show (p.resultSchema ++ [p.effAttr si ap al])[p.projectionMap.length]? =
          some (p.effAttr si ap al)
        rw [← hlen]
        simp
      · exact List.getElem?_eq_getElem h2
      · have h2' : ap < (p.sources[si]?.getD ([] : TupleSchema)).length := by
          simpa [List.getD_eq_getElem?_getD] using h2
        simp [effAttr, List.getD_eq_getElem?_getD, List.getElem?_eq_getElem h2']
      · have h2' : ap < (p.sources[si]?.getD ([] : TupleSchema)).length := by
          simpa [List.getD_eq_getElem?_getD] using h2
        simp [effAttr, List.getD_eq_getElem?_getD, List.getElem?_eq_getElem h2']

/-- Every constructible multi-source projector is type-sound. -/
theorem reachable_typeSound {p : BoundMultiSourceProjector} (hr : p.Reachable) :
    p.TypeSound := by
  induction hr with
  | init schemas h => exact typeSound_empty schemas
  | @step p q si ap al hpr hstep ih =>
    have hq : q = (p.AddAs si ap al).2 := by rw [hstep]
    rw [hq]
    exact typeSound_addAs_snd ih si ap al

end BoundMultiSourceProjector

theorem decomposeStep_sound (k : Nat) (st : DecompState) (e : (Nat × Nat) × String)
    (hp : st.newP.TypeSound) (hn : st.newNth.Sound) :
    (decomposeStep k st e).newP.TypeSound ∧ (decomposeStep k st e).newNth.Sound := by
  unfold decomposeStep
  by_cases hk : e.1.1 ≠ k
  · rw [if_pos hk]
    exact ⟨BoundMultiSourceProjector.typeSound_addAs_snd hp _ _ _, hn⟩
  · rw [if_neg hk]
    cases hl : st.uniq.lookup e.1.2 with
    | some position =>
      exact ⟨BoundMultiSourceProjector.typeSound_addAs_snd hp _ _ _, hn⟩
    | none =>
      exact ⟨BoundMultiSourceProjector.typeSound_addAs_snd hp _ _ _,
        BoundSingleSourceProjector.sound_add_snd hn _⟩

theorem decompose_foldl_sound (k : Nat) :
    ∀ (es : List ((Nat × Nat) × String)) (st : DecompState),
      st.newP.TypeSound → st.newNth.Sound →
      (es.foldl (decomposeStep k) st).newP.TypeSound ∧
      (es.foldl (decomposeStep k) st).newNth.Sound
  | [], _, hp, hn => ⟨hp, hn⟩
  | e :: es, st, hp, hn => by
    rw [List.foldl_cons]
    have hstep := decomposeStep_sound k st e hp hn
    exact decompose_foldl_sound k es _ hstep.1 hstep.2

theorem decomposeNth_sound (k : Nat) (p : BoundMultiSourceProjector) :
    (DecomposeNth k p).1.TypeSound ∧ (DecomposeNth k p).2.Sound := by
  unfold DecomposeNth
  exact decompose_foldl_sound k _ _
    (BoundMultiSourceProjector.typeSound_empty _)
    (BoundSingleSourceProjector.sound_empty _)

theorem addAllThrowMulti_typeSound :
    ∀ (entries : List (Nat × String)) (idx : Nat)
      (acc acc' : BoundMultiSourceProjector), acc.TypeSound →
      addAllThrowMulti idx acc entries = some acc' → acc'.TypeSound
  | [], _, acc, acc', h, he => by
    simp [addAllThrowMulti] at he
    exact he ▸ h
  | (pos, al) :: rest, idx, acc, acc', h, he => by
    rcases h2 : acc.AddAs idx pos al with ⟨b, acc2⟩
    cases b with
    | false => simp [addAllThrowMulti, h2] at he
    | true =>
      simp only [addAllThrowMulti, h2] at he
      have hs : acc2.TypeSound := by
        have := BoundMultiSourceProjector.typeSound_addAs_snd h idx pos al
        rwa [h2] at this
      exact addAllThrowMulti_typeSound rest idx acc2 acc' hs he

theorem cmspGo_typeSound (schemas : List TupleSchema) :
    ∀ (projs : List (Nat × SingleSourceProjector))
      (acc bp : BoundMultiSourceProjector), acc.TypeSound →
      CompoundMultiSourceProjector.Bind.go schemas projs acc = .ok bp → bp.TypeSound
  | [], acc, bp, h, he => by
    simp [CompoundMultiSourceProjector.Bind.go] at he
    exact he ▸ h
  | (idx, sp) :: rest, acc, bp, h, he => by
    rw [CompoundMultiSourceProjector.Bind.go] at he
    rcases hcb : sp.Bind (schemas.getD idx []) with comp | e | _ <;> rw [hcb] at he <;>
      dsimp only at he
    · rcases hat : addAllThrowMulti idx acc
          (comp.proj.zip (TupleSchema.names comp.resultSchema)) with _ | acc' <;>
        rw [hat] at he <;> dsimp only at he
      · cases he
      · exact cmspGo_typeSound schemas rest acc' bp
          (addAllThrowMulti_typeSound _ idx acc acc' h hat) he
    · cases he
    · cases he

theorem compoundMultiBind_typeSound (projs : List (Nat × SingleSourceProjector))
    (schemas : List TupleSchema) (bp : BoundMultiSourceProjector)
    (he : CompoundMultiSourceProjector.Bind projs schemas = .ok bp) :
    bp.TypeSound := by
  rw [CompoundMultiSourceProjector.Bind] at he
  exact cmspGo_typeSound schemas projs _ bp
    (BoundMultiSourceProjector.typeSound_empty schemas) he

/-- C4: every bound projector preserves types and nullability (only the
name may differ), along every construction path: successful AddAs
sequences (`Reachable`), Bind of every unbound single-source variant,
GetSingleSourceProjector, DecomposeNth (both components), and Bind of a
compound multi-source projector. -/
theorem projectors_preserve_type_and_nullability :
    (∀ p : BoundMultiSourceProjector, p.Reachable → p.TypeSound) ∧
    (∀ (ssp : SingleSourceProjector) (s : TupleSchema)
      (bp : BoundSingleSourceProjector), ssp.Bind s = .ok bp → bp.Sound) ∧
    (∀ (p : BoundMultiSourceProjector) (si : Nat),
      (p.GetSingleSourceProjector si).Sound) ∧
    (∀ (k : Nat) (p : BoundMultiSourceProjector),
      (DecomposeNth k p).1.TypeSound ∧ (DecomposeNth k p).2.Sound) ∧
    (∀ (projs : List (Nat × SingleSourceProjector)) (schemas : List TupleSchema)
      (bp : BoundMultiSourceProjector),
      CompoundMultiSourceProjector.Bind projs schemas = .ok bp → bp.TypeSound) := by
  refine ⟨fun p hr => BoundMultiSourceProjector.reachable_typeSound hr,
    fun ssp s bp he => (bind_sound ssp s bp he).1,
    fun p si => ?_,
    fun k p => decomposeNth_sound k p,
    fun projs schemas bp he => compoundMultiBind_typeSound projs schemas bp he⟩
  refine (BoundSingleSourceProjector.foldl_preserves_sound _ ?_ _ _
    (BoundSingleSourceProjector.sound_empty _)).1
  intro acc ea
  by_cases hk : ea.1.1 = si
  · right
    exact ⟨ea.1.2, ea.2.name, by rw [if_pos hk]⟩
  · left
    rw [if_neg hk]

/-! ### The observer claims -/

/-- C3: for every constructible BoundMultiSourceProjector and every valid
(source index, position), the three observers agree: IsAttributeProjected
holds iff NumberOfProjectionsForAttribute is positive iff
ProjectedAttributePositions is non-empty. -/
theorem projection_observers_agree (p : BoundMultiSourceProjector) (si ap : Nat)
    (hr : BoundMultiSourceProjector.Reachable p) (h1 : si < p.sources.length)
    (h2 : ap < (p.sources.getD si []).length) :
    (p.IsAttributeProjected si ap = true ↔
      0 < p.NumberOfProjectionsForAttribute si ap) ∧
    (p.IsAttributeProjected si ap = true ↔
      p.ProjectedAttributePositions si ap ≠ []) := by
  constructor
  · simp only [BoundMultiSourceProjector.IsAttributeProjected,
      BoundMultiSourceProjector.NumberOfProjectionsForAttribute,
      List.any_eq_true, List.length_pos, ne_eq, List.filter_eq_nil_iff]
    push_neg
    simp
  · simp only [BoundMultiSourceProjector.IsAttributeProjected,
      BoundMultiSourceProjector.ProjectedAttributePositions,
      List.any_eq_true, ne_eq, List.map_eq_nil_iff, List.filter_eq_nil_iff]
    push_neg
    simp

/-- C9: AddAs with an empty alias names the appended output attribute
after the referenced source attribute (not with the empty string). -/
theorem addAs_empty_alias_defaults (p : BoundMultiSourceProjector) (si ap : Nat)
    (h1 : si < p.sources.length) (h2 : ap < (p.sources.getD si []).length)
    (h3 : (p.AddAs si ap "").1 = true) :
    TupleSchema.names (p.AddAs si ap "").2.resultSchema =
      TupleSchema.names p.resultSchema ++
        [((p.sources.getD si []).getD ap defaultAttr).name] := by
  have heq : p.AddAs si ap "" = (true, (p.AddAs si ap "").2) := by
    rw [← h3]
  obtain ⟨-, -, -, hq⟩ := BoundMultiSourceProjector.addAs_true_inv heq
  rw [hq]
  simp [TupleSchema.names_append, BoundMultiSourceProjector.effAttr,
    TupleSchema.names]

/-- C10: a failed AddAs (returning false) leaves the projector — its
result schema, projection map and reverse projection map — unchanged. -/
theorem addAs_atomic_on_failure (p : BoundMultiSourceProjector) (si ap : Nat)
    (al : String) (h : (p.AddAs si ap al).1 = false) :
    (p.AddAs si ap al).2.resultSchema = p.resultSchema ∧
    (p.AddAs si ap al).2.projectionMap = p.projectionMap ∧
    (p.AddAs si ap al).2.reverseProjectionMap = p.reverseProjectionMap := by
  rw [BoundMultiSourceProjector.addAs_snd_of_fst_false h]
  exact ⟨rfl, rfl, rfl⟩

/-! ### Characterizations of the add-all loops -/

theorem BoundSingleSourceProjector.addAs_of_mem {p : BoundSingleSourceProjector}
    {pos : Nat} {al : String} (h : al ∈ TupleSchema.names p.resultSchema) :
    p.AddAs pos al = (false, p) := by
  rw [AddAs]
  by_cases h1 : pos < p.source.length
  · rw [if_pos h1]
    rw [show (TupleSchema.addAttribute p.resultSchema (p.mkAttr pos al)) =
      (false, p.resultSchema) from TupleSchema.addAttribute_of_mem h]
  · rw [if_neg h1]

theorem addAllThrow_ok :
    ∀ (entries : List (Nat × String)) (acc : BoundSingleSourceProjector),
      (∀ pr ∈ entries, pr.1 < acc.source.length) →
      (TupleSchema.names acc.resultSchema ++ entries.map Prod.snd).Nodup →
      ∃ acc', addAllThrow acc entries = some acc' ∧ acc'.source = acc.source ∧
        TupleSchema.names acc'.resultSchema =
          TupleSchema.names acc.resultSchema ++ entries.map Prod.snd ∧
        acc'.proj = acc.proj ++ entries.map Prod.fst
  | [], acc, _, _ => ⟨acc, by simp [addAllThrow]⟩
  | (pos, al) :: rest, acc, hv, hnd => by
    have hfresh : al ∉ TupleSchema.names acc.resultSchema := by
      rw [List.map_cons, List.nodup_append] at hnd
      intro hx
      exact hnd.2.2 hx (List.mem_cons_self al _)
    have hpos : pos < acc.source.length := hv (pos, al) (List.mem_cons_self _ _)
    have hsucc := BoundSingleSourceProjector.addAs_ok hpos hfresh
    obtain ⟨acc', ih1, ih2, ih3, ih4⟩ := addAllThrow_ok rest
      ⟨acc.source, acc.resultSchema ++ [acc.mkAttr pos al], acc.proj ++ [pos]⟩
      (fun pr hpr => hv pr (List.mem_cons_of_mem _ hpr))
      (by
        show (TupleSchema.names (acc.resultSchema ++ [acc.mkAttr pos al]) ++
          rest.map Prod.snd).Nodup
        rw [TupleSchema.names_append]
        show ((TupleSchema.names acc.resultSchema ++ [al]) ++ rest.map Prod.snd).Nodup
        simpa using hnd)
    refine ⟨acc', ?_, ih2, ?_, ?_⟩
    · rw [addAllThrow, hsucc]
      exact ih1
    · rw [ih3, TupleSchema.names_append]
      show TupleSchema.names acc.resultSchema ++ [al] ++ rest.map Prod.snd = _
      simp
    · rw [ih4]
      simp

theorem addAllThrow_dup :
    ∀ (entries : List (Nat × String)) (acc : BoundSingleSourceProjector),
      (TupleSchema.names acc.resultSchema).Nodup →
      ¬ (TupleSchema.names acc.resultSchema ++ entries.map Prod.snd).Nodup →
      addAllThrow acc entries = none
  | [], acc, hnd, hdup => absurd (by simpa using hnd) hdup
  | (pos, al) :: rest, acc, hnd, hdup => by
    by_cases hmem : al ∈ TupleSchema.names acc.resultSchema
    · rw [addAllThrow, BoundSingleSourceProjector.addAs_of_mem hmem]
    · by_cases hpos : pos < acc.source.length
      · have hsucc := BoundSingleSourceProjector.addAs_ok hpos hmem
        rw [addAllThrow, hsucc]
        refine addAllThrow_dup rest _ ?_ ?_
        · show (TupleSchema.names (acc.resultSchema ++ [acc.mkAttr pos al])).Nodup
          rw [TupleSchema.names_append]
          show (TupleSchema.names acc.resultSchema ++ [al]).Nodup
          rw [List.nodup_append]
          refine ⟨hnd, List.nodup_singleton al, ?_⟩
          intro a ha hal
          rw [List.mem_singleton] at hal
          exact hmem (hal ▸ ha)
        · show ¬ (TupleSchema.names (acc.resultSchema ++ [acc.mkAttr pos al]) ++
            rest.map Prod.snd).Nodup
          rw [TupleSchema.names_append]
          show ¬ ((TupleSchema.names acc.resultSchema ++ [al]) ++ rest.map Prod.snd).Nodup
          intro hc
          exact hdup (by simpa using hc)
      · rw [addAllThrow,
          show acc.AddAs pos al = (false, acc) by rw [BoundSingleSourceProjector.AddAs, if_neg hpos]]

theorem addAllChecked_ok :
    ∀ (entries : List (Nat × String)) (acc : BoundSingleSourceProjector),
      (∀ pr ∈ entries, pr.1 < acc.source.length) →
      (TupleSchema.names acc.resultSchema ++ entries.map Prod.snd).Nodup →
      ∃ acc', addAllChecked acc entries = .ok acc' ∧ acc'.source = acc.source ∧
        TupleSchema.names acc'.resultSchema =
          TupleSchema.names acc.resultSchema ++ entries.map Prod.snd ∧
        acc'.proj = acc.proj ++ entries.map Prod.fst
  | [], acc, _, _ => ⟨acc, by simp [addAllChecked]⟩
  | (pos, al) :: rest, acc, hv, hnd => by
    have hfresh : al ∉ TupleSchema.names acc.resultSchema := by
      rw [List.map_cons, List.nodup_append] at hnd
      intro hx
      exact hnd.2.2 hx (List.mem_cons_self al _)
    have hpos : pos < acc.source.length := hv (pos, al) (List.mem_cons_self _ _)
    have hsucc := BoundSingleSourceProjector.addAs_ok hpos hfresh
    obtain ⟨acc', ih1, ih2, ih3, ih4⟩ := addAllChecked_ok rest
      ⟨acc.source, acc.resultSchema ++ [acc.mkAttr pos al], acc.proj ++ [pos]⟩
      (fun pr hpr => hv pr (List.mem_cons_of_mem _ hpr))
      (by
        show (TupleSchema.names (acc.resultSchema ++ [acc.mkAttr pos al]) ++
          rest.map Prod.snd).Nodup
        rw [TupleSchema.names_append]
        show ((TupleSchema.names acc.resultSchema ++ [al]) ++ rest.map Prod.snd).Nodup
        simpa using hnd)
    refine ⟨acc', ?_, ih2, ?_, ?_⟩
    · rw [addAllChecked, hsucc]
      exact ih1
    · rw [ih3, TupleSchema.names_append]
      show TupleSchema.names acc.resultSchema ++ [al] ++ rest.map Prod.snd = _
      simp
    · rw [ih4]
      simp

theorem BindRes.isOk_iff {r : BindRes} : r.isOk = true ↔ ∃ p, r = .ok p := by
  cases r <;> simp [BindRes.isOk]

/-- The concatenation, in order, of the bound result names of a list of
child projectors (children that do not bind successfully contribute
nothing; the lemmas below assume they all do). -/
def boundNamesConcat (s : TupleSchema) : List SingleSourceProjector → List String
  | [] => []
  | c :: cs =>
    (match c.Bind s with
      | .ok bc => TupleSchema.names bc.resultSchema
      | _ => []) ++ boundNamesConcat s cs

theorem bindChildren_dup :
    ∀ (cs : List SingleSourceProjector) (s : TupleSchema)
      (acc : BoundSingleSourceProjector),
      (∀ c ∈ cs, (c.Bind s).isOk = true) → acc.source = s →
      (TupleSchema.names acc.resultSchema).Nodup →
      ¬ (TupleSchema.names acc.resultSchema ++ boundNamesConcat s cs).Nodup →
      SingleSourceProjector.bindChildren cs s acc = .err .ATTRIBUTE_EXISTS
  | [], s, acc, _, _, hnd, hdup =>
    absurd (by simpa [boundNamesConcat] using hnd) hdup
  | c :: cs, s, acc, hok, hsrc, hnd, hdup => by
    obtain ⟨comp, hcb⟩ := BindRes.isOk_iff.mp (hok c (List.mem_cons_self c cs))
    have hcsound := bind_sound c s comp hcb
    have hlen : comp.proj.length = (TupleSchema.names comp.resultSchema).length := by
      rw [hcsound.1.1]
      simp [TupleSchema.names]
    have hvalid : ∀ pr ∈ comp.proj.zip (TupleSchema.names comp.resultSchema),
        pr.1 < acc.source.length := by
      intro pr hpr
      have h1 : pr.1 ∈ comp.proj := (List.of_mem_zip hpr).1
      obtain ⟨i, hi, hei⟩ := List.getElem_of_mem h1
      have h2 := (hcsound.1.2 i pr.1 (by rw [List.getElem?_eq_getElem hi, hei])).1
      rw [hcsound.2] at h2
      rw [hsrc]
      exact h2
    have hsnd : (comp.proj.zip (TupleSchema.names comp.resultSchema)).map Prod.snd =
        TupleSchema.names comp.resultSchema :=
      List.map_snd_zip _ _ (le_of_eq hlen.symm)
    have hconc : boundNamesConcat s (c :: cs) =
        TupleSchema.names comp.resultSchema ++ boundNamesConcat s cs := by
      rw [boundNamesConcat, hcb]
    rw [SingleSourceProjector.bindChildren, hcb]
    dsimp only
    by_cases hnd2 : (TupleSchema.names acc.resultSchema ++
        TupleSchema.names comp.resultSchema).Nodup
    · obtain ⟨acc', ha1, ha2, ha3, ha4⟩ :=
        addAllThrow_ok (comp.proj.zip (TupleSchema.names comp.resultSchema)) acc hvalid
          (by rw [hsnd]; exact hnd2)
      rw [ha1]
      refine bindChildren_dup cs s acc'
        (fun x hx => hok x (List.mem_cons_of_mem c hx))
        (ha2.trans hsrc) (by rw [ha3, hsnd]; exact hnd2) ?_
      rw [ha3, hsnd]
      intro hcon
      apply hdup
      rw [hconc, ← List.append_assoc]
      exact hcon
    · rw [addAllThrow_dup (comp.proj.zip (TupleSchema.names comp.resultSchema)) acc hnd
        (by rw [hsnd]; exact hnd2)]

/-- C6: binding a compound single-source projector whose successfully
binding children produce duplicate result names fails with
ATTRIBUTE_EXISTS. -/
theorem compound_duplicate_names_attribute_exists
    (cs : List SingleSourceProjector) (s : TupleSchema)
    (hok : ∀ c ∈ cs, (c.Bind s).isOk = true)
    (hdup : ¬ (boundNamesConcat s cs).Nodup) :
    SingleSourceProjector.Bind (.compound cs) s = .err .ATTRIBUTE_EXISTS := by
  rw [SingleSourceProjector.Bind]
  refine bindChildren_dup cs s _ hok rfl ?_ ?_
  · show (TupleSchema.names []).Nodup
    simp [TupleSchema.names]
  · show ¬ (TupleSchema.names [] ++ boundNamesConcat s cs).Nodup
    simpa [TupleSchema.names] using hdup

/-- C7: binding Renaming(aliases, child) with internally unique aliases,
when the child binds successfully: with matching lengths it succeeds, the
result names are exactly the aliases and the projection vector is the
child's; with mismatched lengths it fails with ATTRIBUTE_COUNT_MISMATCH. -/
theorem renaming_bind_spec (aliases : List String) (child : SingleSourceProjector)
    (s : TupleSchema) (bc : BoundSingleSourceProjector)
    (hnodup : aliases.Nodup) (hok : child.Bind s = .ok bc) :
    (aliases.length = bc.resultSchema.length →
      ∃ bp, SingleSourceProjector.Bind (.renamingProjector aliases child) s = .ok bp ∧
        TupleSchema.names bp.resultSchema = aliases ∧ bp.proj = bc.proj) ∧
    (aliases.length ≠ bc.resultSchema.length →
      SingleSourceProjector.Bind (.renamingProjector aliases child) s =
        .err .ATTRIBUTE_COUNT_MISMATCH) := by
  have hsound := bind_sound child s bc hok
  constructor
  · intro hlen
    rw [SingleSourceProjector.Bind, hok]
    dsimp only
    rw [if_pos hlen]
    have hplen : bc.proj.length = aliases.length := by
      rw [hsound.1.1, ← hlen]
    have hvalid : ∀ pr ∈ bc.proj.zip aliases,
        pr.1 < (BoundSingleSourceProjector.empty s).source.length := by
      intro pr hpr
      have h1 : pr.1 ∈ bc.proj := (List.of_mem_zip hpr).1
      obtain ⟨i, hi, hei⟩ := List.getElem_of_mem h1
      have h2 := (hsound.1.2 i pr.1 (by rw [List.getElem?_eq_getElem hi, hei])).1
      rw [hsound.2] at h2
      exact h2
    obtain ⟨bp, h1, h2, h3, h4⟩ := addAllChecked_ok (bc.proj.zip aliases)
      (BoundSingleSourceProjector.empty s) hvalid
      (by
        show (TupleSchema.names [] ++ (bc.proj.zip aliases).map Prod.snd).Nodup
        rw [List.map_snd_zip bc.proj aliases (le_of_eq hplen.symm)]
        simpa [TupleSchema.names] using hnodup)
    refine ⟨bp, h1, ?_, ?_⟩
    · rw [h3]
      show TupleSchema.names [] ++ (bc.proj.zip aliases).map Prod.snd = aliases
      rw [List.map_snd_zip bc.proj aliases (le_of_eq hplen.symm)]
      simp [TupleSchema.names]
    · rw [h4]
      show [] ++ (bc.proj.zip aliases).map Prod.fst = bc.proj
      rw [List.map_fst_zip bc.proj aliases (le_of_eq hplen)]
      simp
  · intro hne
    rw [SingleSourceProjector.Bind, hok]
    dsimp only
    rw [if_neg hne]

/-- C5 counterexample: at i = -1 against a one-attribute schema we have
i < w, yet binding PositionedAttribute(-1) does not succeed (the range
check passes and the projector aborts in Add), refuting "succeeds iff
i < w" as quantified over negative i. -/
theorem positionedAttribute_negative_counterexample :
    ((-1 : Int) < (1 : Int)) ∧
    (SingleSourceProjector.Bind (.positionedAttribute (-1))
      [⟨"col0", .INT32, .NOT_NULLABLE⟩]).isOk = false := by
  exact ⟨by decide, rfl⟩

/-- C5 (amended): binding PositionedAttribute(i) against a schema of
width w: for i ≥ w it fails with ATTRIBUTE_COUNT_MISMATCH; for
0 ≤ i < w it succeeds with a one-attribute projector mapping to
position i; for i < 0 the range check passes but the Add contract is
violated (a CHECK abort, not a success). -/
theorem positionedAttribute_bind_cases (i : Int) (s : TupleSchema) :
    ((s.length : Int) ≤ i →
      SingleSourceProjector.Bind (.positionedAttribute i) s =
        .err .ATTRIBUTE_COUNT_MISMATCH) ∧
    (0 ≤ i → i < (s.length : Int) →
      SingleSourceProjector.Bind (.positionedAttribute i) s =
        .ok ⟨s, [s.getD i.toNat defaultAttr], [i.toNat]⟩) ∧
    (i < 0 →
      SingleSourceProjector.Bind (.positionedAttribute i) s = .abort) := by
  refine ⟨fun hge => ?_, fun h0 hlt => ?_, fun hneg => ?_⟩
  · rw [SingleSourceProjector.Bind, if_pos hge]
  · rw [SingleSourceProjector.Bind, if_neg (by omega), if_neg (by omega)]
    have hlt' : i.toNat < s.length := by omega
    rw [BoundSingleSourceProjector.Add,
      BoundSingleSourceProjector.addAs_ok hlt'
        (by simp [TupleSchema.names, BoundSingleSourceProjector.empty])]
    rfl
  · rw [SingleSourceProjector.Bind, if_neg (by omega), if_pos hneg]

/-- Membership in the referred names of a list of bound expressions. -/
theorem mem_referredOfList {nm : String} :
    ∀ (cs : List BoundExpr), nm ∈ BoundExpr.referredOfList cs ↔
      ∃ c ∈ cs, nm ∈ c.referredAttributeNames
  | [] => by simp [BoundExpr.referredOfList]
  | c :: cs => by
    rw [BoundExpr.referredOfList, List.mem_append]
    rw [mem_referredOfList cs]
    simp

/-- C8: the referred attribute names of a projection expression are the
union of the referred names of all its child expressions — including
children none of whose output columns the projector surfaces. -/
theorem projection_referred_names_union (projector : BoundMultiSourceProjector)
    (cs : List BoundExpr) (nm : String) :
    nm ∈ (BoundExpr.projection projector cs).referredAttributeNames ↔
      ∃ c ∈ cs, nm ∈ c.referredAttributeNames := by
  rw [BoundExpr.referredAttributeNames]
  exact mem_referredOfList cs

/-! ### Characterization of DecomposeNth -/

theorem getElem?_concat_len {α : Type} (l : List α) (x : α) :
    (l ++ [x])[l.length]? = some x := by
  simp

theorem getElem?_concat_cases {α : Type} {l : List α} {x y : α} {i : Nat}
    (h : (l ++ [x])[i]? = some y) :
    (i < l.length ∧ l[i]? = some y) ∨ (i = l.length ∧ y = x) := by
  by_cases hi : i < l.length
  · exact Or.inl ⟨hi, by rwa [List.getElem?_append_left hi] at h⟩
  · right
    rw [List.getElem?_append_right (Nat.le_of_not_lt hi)] at h
    cases hj : i - l.length with
    | zero =>
      rw [hj] at h
      simp only [List.getElem?_cons_zero, Option.some.injEq] at h
      exact ⟨by omega, h.symm⟩
    | succ n =>
      rw [hj] at h
      simp at h

theorem getD_mem {α : Type} {l : List α} {i : Nat} (d : α) (h : i < l.length) :
    l.getD i d ∈ l := by
  rw [List.getD_eq_getElem?_getD, List.getElem?_eq_getElem h]
  exact List.getElem_mem h

theorem nodup_lt_length_le {l : List Nat} {n : Nat} (hnd : l.Nodup)
    (hlt : ∀ x ∈ l, x < n) : l.length ≤ n := by
  classical
  have h1 : l.toFinset.card = l.length := List.toFinset_card_of_nodup hnd
  have h2 : l.toFinset ⊆ Finset.range n := fun x hx =>
    Finset.mem_range.mpr (hlt x (List.mem_toFinset.mp hx))
  simpa [h1] using Finset.card_le_card h2

/-- Invariant of the `DecomposeNth` loop after processing the prefix
`done` of the (projection entry, result name) list: the inner projector
collects each source-`k` position once, the uniqualizer is exactly its
position index, and the outer projector mirrors `done` with source-`k`
entries rewritten through the inner projector. -/
structure DecompInv (p : BoundMultiSourceProjector) (k : Nat)
    (done : List ((Nat × Nat) × String)) (st : DecompState) : Prop where
  nth_source : st.newNth.source = p.sources.getD k []
  nth_nodup : st.newNth.proj.Nodup
  nth_valid : ∀ x ∈ st.newNth.proj, x < (p.sources.getD k []).length
  nth_schema : st.newNth.resultSchema =
    st.newNth.proj.map (fun pos => (p.sources.getD k []).getD pos defaultAttr)
  uniq_lookup : ∀ (pos j : Nat),
    st.uniq.lookup pos = some j ↔ st.newNth.proj[j]? = some pos
  nth_complete : ∀ pr ∈ done, pr.1.1 = k → pr.1.2 ∈ st.newNth.proj
  p_sources : st.newP.sources = p.sources
  p_len : st.newP.projectionMap.length = done.length
  p_names : TupleSchema.names st.newP.resultSchema = done.map Prod.snd
  p_map : ∀ (i : Nat) (e : (Nat × Nat) × String), done[i]? = some e →
    ∃ pe : Nat × Nat, st.newP.projectionMap[i]? = some pe ∧
      (e.1.1 ≠ k → pe = e.1) ∧
      (e.1.1 = k → pe.1 = k ∧ st.newNth.proj[pe.2]? = some e.1.2)

theorem decompInv_init (p : BoundMultiSourceProjector) (k : Nat) :
    DecompInv p k []
      ⟨[], BoundMultiSourceProjector.empty p.sources,
       BoundSingleSourceProjector.empty (p.sources.getD k [])⟩ := by
  refine ⟨rfl, List.nodup_nil, ?_, rfl, ?_, ?_, rfl, rfl, rfl, ?_⟩
  · intro x hx
    simp [BoundSingleSourceProjector.empty] at hx
  · intro pos j
    constructor
    · intro h
      simp [List.lookup] at h
    · intro h
      simp [BoundSingleSourceProjector.empty] at h
  · intro pr hpr
    simp at hpr
  · intro i e he
    simp at he

theorem lookup_cons_ite (x v : Nat) (l : List (Nat × Nat)) (y : Nat) :
    List.lookup y ((x, v) :: l) = if y = x then some v else List.lookup y l := by
  rw [List.lookup_cons]
  by_cases h : y = x
  · simp [h]
  · simp [h]
    rw [show (y == x) = false from beq_eq_false_iff_ne.mpr h]

theorem decompInv_step (p : BoundMultiSourceProjector) (k : Nat)
    (done : List ((Nat × Nat) × String)) (st : DecompState)
    (e : (Nat × Nat) × String) (hinv : DecompInv p k done st)
    (hkv : k < p.sources.length)
    (hwfk : TupleSchema.WF (p.sources.getD k []))
    (hev1 : e.1.1 < p.sources.length)
    (hev2 : e.1.2 < (p.sources.getD e.1.1 []).length)
    (hfresh : e.2 ∉ done.map Prod.snd)
    (hne : e.2 ≠ "") :
    DecompInv p k (done ++ [e]) (decomposeStep k st e) := by
  obtain ⟨⟨si, pos⟩, al⟩ := e
  have heff : ∀ si2 ap2, (st.newP.effAttr si2 ap2 al).name = al := fun si2 ap2 => by
    rw [BoundMultiSourceProjector.effAttr]
    simp [hne]
  have houter : ∀ si2 ap2, si2 < p.sources.length →
      ap2 < (p.sources.getD si2 []).length →
      (st.newP.AddAs si2 ap2 al).2 =
        ⟨st.newP.sources, st.newP.resultSchema ++ [st.newP.effAttr si2 ap2 al],
         st.newP.projectionMap ++ [(si2, ap2)],
         st.newP.reverseProjectionMap ++ [((si2, ap2), st.newP.projectionMap.length)]⟩ := by
    intro si2 ap2 h1 h2
    rw [BoundMultiSourceProjector.addAs_success
      (by rw [hinv.p_sources]; exact h1)
      (by rw [hinv.p_sources]; exact h2)
      (by rw [heff si2 ap2, hinv.p_names]; exact hfresh)]
  by_cases hsik : si ≠ k
  · -- entry of another source: passed through unchanged
    have hstep : decomposeStep k st ((si, pos), al) =
        { st with newP := (st.newP.AddAs si pos al).2 } := by
      rw [decomposeStep, if_pos hsik]
    rw [hstep, houter si pos hev1 hev2]
    refine ⟨hinv.nth_source, hinv.nth_nodup, hinv.nth_valid, hinv.nth_schema,
      hinv.uniq_lookup, ?_, hinv.p_sources, ?_, ?_, ?_⟩
    · intro pr hpr hprk
      rcases List.mem_append.mp hpr with h | h
      · exact hinv.nth_complete pr h hprk
      · rw [List.mem_singleton] at h
        subst h
        exact absurd hprk hsik
    · show (st.newP.projectionMap ++ [(si, pos)]).length = (done ++ [((si, pos), al)]).length
      simp [hinv.p_len]
    · show TupleSchema.names (st.newP.resultSchema ++ [st.newP.effAttr si pos al]) =
        (done ++ [((si, pos), al)]).map Prod.snd
      rw [TupleSchema.names_append, hinv.p_names]
      simp [TupleSchema.names, heff si pos]
    · intro i e' he'
      rcases getElem?_concat_cases he' with ⟨hi, hold⟩ | ⟨hi, rfl⟩
      · obtain ⟨pe, h1, h2, h3⟩ := hinv.p_map i e' hold
        exact ⟨pe, by
          rw [List.getElem?_append_left (by rw [hinv.p_len]; exact hi)]
          exact h1, h2, h3⟩
      · subst hi
        refine ⟨(si, pos), ?_, fun _ => rfl, fun hk => absurd hk hsik⟩
        rw [← hinv.p_len, getElem?_concat_len]
  · push_neg at hsik
    subst hsik
    have hifneg : ¬ (((si, pos), al) : (Nat × Nat) × String).1.1 ≠ si := by simp
    cases hl : st.uniq.lookup pos with
    | some position =>
      -- position already collected: reuse its inner output slot
      have hstep : decomposeStep si st ((si, pos), al) =
          { st with newP := (st.newP.AddAs si position al).2 } := by
        rw [decomposeStep, if_neg hifneg]
        show (match st.uniq.lookup pos with
          | some position => { st with newP := (st.newP.AddAs si position al).2 }
          | none => _) = _
        rw [hl]
      have hppos : st.newNth.proj[position]? = some pos :=
        (hinv.uniq_lookup pos position).mp hl
      have hposlt : position < st.newNth.proj.length :=
        (List.getElem?_eq_some.mp hppos).1
      have hlen_le : st.newNth.proj.length ≤ (p.sources.getD si []).length :=
        nodup_lt_length_le hinv.nth_nodup hinv.nth_valid
      have hposval : position < (p.sources.getD si []).length :=
        lt_of_lt_of_le hposlt hlen_le
      rw [hstep, houter si position hev1 hposval]
      refine ⟨hinv.nth_source, hinv.nth_nodup, hinv.nth_valid, hinv.nth_schema,
        hinv.uniq_lookup, ?_, hinv.p_sources, ?_, ?_, ?_⟩
      · intro pr hpr hprk
        rcases List.mem_append.mp hpr with h | h
        · exact hinv.nth_complete pr h hprk
        · rw [List.mem_singleton] at h
          subst h
          exact List.getElem?_mem hppos
      · show (st.newP.projectionMap ++ [(si, position)]).length =
          (done ++ [((si, pos), al)]).length
        simp [hinv.p_len]
      · show TupleSchema.names (st.newP.resultSchema ++ [st.newP.effAttr si position al]) =
          (done ++ [((si, pos), al)]).map Prod.snd
        rw [TupleSchema.names_append, hinv.p_names]
        simp [TupleSchema.names, heff si position]
      · intro i e' he'
        rcases getElem?_concat_cases he' with ⟨hi, hold⟩ | ⟨hi, rfl⟩
        · obtain ⟨pe, h1, h2, h3⟩ := hinv.p_map i e' hold
          exact ⟨pe, by
            rw [List.getElem?_append_left (by rw [hinv.p_len]; exact hi)]
            exact h1, h2, h3⟩
        · subst hi
          refine ⟨(si, position), ?_, fun hns => absurd rfl hns, fun _ => ⟨rfl, hppos⟩⟩
          rw [← hinv.p_len, getElem?_concat_len]
    | none =>
      -- a fresh position: extend the inner projector
      have hstep : decomposeStep si st ((si, pos), al) =
          { uniq := (pos, st.newNth.resultSchema.length) :: st.uniq,
            newNth := (st.newNth.Add pos).2,
            newP := (st.newP.AddAs si st.newNth.resultSchema.length al).2 } := by
        rw [decomposeStep, if_neg hifneg]
        show (match st.uniq.lookup pos with
          | some position => { st with newP := (st.newP.AddAs si position al).2 }
          | none => _) = _
        rw [hl]
      have hnotmem : pos ∉ st.newNth.proj := by
        intro hmem
        obtain ⟨j, hj, hje⟩ := List.getElem_of_mem hmem
        have hsome : st.uniq.lookup pos = some j :=
          (hinv.uniq_lookup pos j).mpr (by rw [List.getElem?_eq_getElem hj, hje])
        rw [hl] at hsome
        cases hsome
      have hposval : pos < (p.sources.getD si []).length := hev2
      have hreslen : st.newNth.resultSchema.length = st.newNth.proj.length := by
        rw [hinv.nth_schema, List.length_map]
      have hnthfresh : ((p.sources.getD si []).getD pos defaultAttr).name ∉
          TupleSchema.names st.newNth.resultSchema := by
        rw [hinv.nth_schema]
        intro hmem
        rw [TupleSchema.names, List.map_map] at hmem
        obtain ⟨pos', hpos'mem, hnameeq⟩ := List.mem_map.mp hmem
        have hpos'val := hinv.nth_valid pos' hpos'mem
        have hgn : ∀ x : Nat, x < (p.sources.getD si []).length →
            (TupleSchema.names (p.sources.getD si []))[x]? =
              some ((p.sources.getD si []).getD x defaultAttr).name := by
          intro x hx
          have hx2 : x < (p.sources[si]?.getD ([] : TupleSchema)).length := by
            simpa [List.getD_eq_getElem?_getD] using hx
          rw [TupleSchema.names, List.getElem?_map, List.getElem?_eq_getElem hx]
          simp [List.getD_eq_getElem?_getD, List.getElem?_eq_getElem hx2]
        have hpp : pos' = pos := by
          have h1 := hgn pos' hpos'val
          have h2 := hgn pos hposval
          obtain ⟨hb1, e1⟩ := List.getElem?_eq_some.mp h1
          obtain ⟨hb2, e2⟩ := List.getElem?_eq_some.mp h2
          exact (List.Nodup.getElem_inj_iff hwfk.1).mp (e1.trans (hnameeq.trans e2.symm))
        exact hnotmem (hpp ▸ hpos'mem)
      have hAdd : (st.newNth.Add pos).2 =
          ⟨st.newNth.source,
           st.newNth.resultSchema ++ [st.newNth.source.getD pos defaultAttr],
           st.newNth.proj ++ [pos]⟩ := by
        rw [BoundSingleSourceProjector.Add,
          BoundSingleSourceProjector.addAs_ok
            (by rw [hinv.nth_source]; exact hposval)
            (by rw [hinv.nth_source]; exact hnthfresh)]
        rfl
      have hidxlt : st.newNth.resultSchema.length < (p.sources.getD si []).length := by
        have hnd2 : (st.newNth.proj ++ [pos]).Nodup := by
          rw [List.nodup_append]
          exact ⟨hinv.nth_nodup, List.nodup_singleton pos, by
            intro a ha hax
            rw [List.mem_singleton] at hax
            exact hnotmem (hax ▸ ha)⟩
        have hval2 : ∀ x ∈ st.newNth.proj ++ [pos], x < (p.sources.getD si []).length := by
          intro x hx
          rcases List.mem_append.mp hx with h | h
          · exact hinv.nth_valid x h
          · rw [List.mem_singleton] at h
            exact h ▸ hposval
        have := nodup_lt_length_le hnd2 hval2
        rw [List.length_append, List.length_singleton] at this
        omega
      rw [hstep, houter si st.newNth.resultSchema.length hev1 hidxlt, hAdd]
      refine ⟨hinv.nth_source, ?_, ?_, ?_, ?_, ?_, hinv.p_sources, ?_, ?_, ?_⟩
      · show (st.newNth.proj ++ [pos]).Nodup
        rw [List.nodup_append]
        exact ⟨hinv.nth_nodup, List.nodup_singleton pos, by
          intro a ha hax
          rw [List.mem_singleton] at hax
          exact hnotmem (hax ▸ ha)⟩
      · intro x hx
        rcases List.mem_append.mp hx with h | h
        · exact hinv.nth_valid x h
        · rw [List.mem_singleton] at h
          exact h ▸ hposval
      · show st.newNth.resultSchema ++ [st.newNth.source.getD pos defaultAttr] =
          (st.newNth.proj ++ [pos]).map
            (fun pos => (p.sources.getD si []).getD pos defaultAttr)
        rw [List.map_append, ← hinv.nth_schema, hinv.nth_source]
        rfl
      · intro pos' j
        show List.lookup pos' ((pos, st.newNth.resultSchema.length) :: st.uniq) = some j ↔
          (st.newNth.proj ++ [pos])[j]? = some pos'
        rw [lookup_cons_ite]
        by_cases hpp : pos' = pos
        · subst hpp
          rw [if_pos rfl]
          constructor
          · intro h
            injection h with h
            subst h
            rw [hreslen, getElem?_concat_len]
          · intro h
            rcases getElem?_concat_cases h with ⟨hj, hj2⟩ | ⟨hj, _⟩
            · exact absurd (List.getElem?_mem hj2) hnotmem
            · rw [hj, ← hreslen]
        · rw [if_neg hpp, hinv.uniq_lookup pos' j]
          constructor
          · intro h
            rw [List.getElem?_append_left (List.getElem?_eq_some.mp h).1]
            exact h
          · intro h
            rcases getElem?_concat_cases h with ⟨hj, hj2⟩ | ⟨hj, hj2⟩
            · exact hj2
            · exact absurd hj2 hpp
      · intro pr hpr hprk
        rcases List.mem_append.mp hpr with h | h
        · exact List.mem_append_left _ (hinv.nth_complete pr h hprk)
        · rw [List.mem_singleton] at h
          subst h
          exact List.mem_append_right _ (List.mem_singleton.mpr rfl)
      · show (st.newP.projectionMap ++ [(si, st.newNth.resultSchema.length)]).length =
          (done ++ [((si, pos), al)]).length
        simp [hinv.p_len]
      · show TupleSchema.names
          (st.newP.resultSchema ++ [st.newP.effAttr si st.newNth.resultSchema.length al]) =
          (done ++ [((si, pos), al)]).map Prod.snd
        rw [TupleSchema.names_append, hinv.p_names]
        simp [TupleSchema.names, heff si st.newNth.resultSchema.length]
      · intro i e' he'
        rcases getElem?_concat_cases he' with ⟨hi, hold⟩ | ⟨hi, rfl⟩
        · obtain ⟨pe, h1, h2, h3⟩ := hinv.p_map i e' hold
          refine ⟨pe, by
            rw [List.getElem?_append_left (by rw [hinv.p_len]; exact hi)]
            exact h1, h2, ?_⟩
          intro hk
          obtain ⟨hk1, hk2⟩ := h3 hk
          exact ⟨hk1, by
            rw [List.getElem?_append_left (List.getElem?_eq_some.mp hk2).1]
            exact hk2⟩
        · subst hi
          refine ⟨(si, st.newNth.resultSchema.length), ?_,
            fun hns => absurd rfl hns, fun _ => ⟨rfl, ?_⟩⟩
          · rw [← hinv.p_len, getElem?_concat_len]
          · show (st.newNth.proj ++ [pos])[st.newNth.resultSchema.length]? = some pos
            rw [hreslen, getElem?_concat_len]

theorem decomp_fold_inv (p : BoundMultiSourceProjector) (k : Nat)
    (hty : p.TypeSound)
    (hnodup : (TupleSchema.names p.resultSchema).Nodup)
    (hnonempty : ∀ a ∈ p.resultSchema, a.name ≠ "")
    (hkv : k < p.sources.length)
    (hwfk : TupleSchema.WF (p.sources.getD k [])) :
    ∀ (rest done : List ((Nat × Nat) × String)) (st : DecompState),
      done ++ rest = p.projectionMap.zip (TupleSchema.names p.resultSchema) →
      DecompInv p k done st →
      DecompInv p k (done ++ rest) (rest.foldl (decomposeStep k) st)
  | [], done, st, _, hinv => by simpa using hinv
  | e :: rest, done, st, hE, hinv => by
    have hlen1 : (TupleSchema.names p.resultSchema).length ≤ p.projectionMap.length := by
      rw [TupleSchema.names, List.length_map, hty.1]
    have hEsnd : (p.projectionMap.zip (TupleSchema.names p.resultSchema)).map Prod.snd =
        TupleSchema.names p.resultSchema :=
      List.map_snd_zip _ _ hlen1
    have hsndeq : done.map Prod.snd ++ e.2 :: rest.map Prod.snd =
        TupleSchema.names p.resultSchema := by
      rw [← hEsnd, ← hE]
      simp
    have hndall : (done.map Prod.snd ++ e.2 :: rest.map Prod.snd).Nodup := by
      rw [hsndeq]
      exact hnodup
    have hfresh : e.2 ∉ done.map Prod.snd := by
      rw [List.nodup_append] at hndall
      intro hx
      exact hndall.2.2 hx (List.mem_cons_self _ _)
    have hmemname : e.2 ∈ TupleSchema.names p.resultSchema := by
      rw [← hsndeq]
      exact List.mem_append_right _ (List.mem_cons_self _ _)
    have hne2 : e.2 ≠ "" := by
      rw [TupleSchema.names] at hmemname
      obtain ⟨a, ha, hae⟩ := List.mem_map.mp hmemname
      exact hae ▸ hnonempty a ha
    have hmemE : e ∈ p.projectionMap.zip (TupleSchema.names p.resultSchema) := by
      rw [← hE]
      exact List.mem_append_right _ (List.mem_cons_self _ _)
    have hmem1 : e.1 ∈ p.projectionMap := (List.of_mem_zip hmemE).1
    obtain ⟨i, hi, hie⟩ := List.getElem_of_mem hmem1
    have hty2 := hty.2 i e.1 (by rw [List.getElem?_eq_getElem hi, hie])
    have hv2 : e.1.2 < (p.sources.getD e.1.1 []).length := by
      obtain ⟨ra, sa, _, hsa, _⟩ := hty2.2
      exact (List.getElem?_eq_some.mp hsa).1
    have hstep := decompInv_step p k done st e hinv hkv hwfk hty2.1 hv2 hfresh hne2
    have ih := decomp_fold_inv p k hty hnodup hnonempty hkv hwfk rest (done ++ [e])
      (decomposeStep k st e) (by rw [List.append_assoc]; simpa using hE) hstep
    rw [List.foldl_cons, show done ++ e :: rest = (done ++ [e]) ++ rest by simp]
    exact ih

namespace BoundMultiSourceProjector

theorem reachable_sources_wf {p : BoundMultiSourceProjector} (hr : p.Reachable) :
    ∀ t ∈ p.sources, TupleSchema.WF t := by
  induction hr with
  | init schemas h => exact h
  | @step p q si ap al hpr hstep ih =>
    obtain ⟨-, -, -, hq⟩ := addAs_true_inv hstep
    rw [hq]
    exact ih

theorem reachable_names_nonempty {p : BoundMultiSourceProjector} (hr : p.Reachable) :
    ∀ a ∈ p.resultSchema, a.name ≠ "" := by
  induction hr with
  | init schemas h =>
    intro a ha
    simp [empty] at ha
  | @step p q si ap al hpr hstep ih =>
    obtain ⟨h1, h2, h3, hq⟩ := addAs_true_inv hstep
    rw [hq]
    intro a ha
    rcases List.mem_append.mp ha with h | h
    · exact ih a h
    · rw [List.mem_singleton] at h
      subst h
      show (p.effAttr si ap al).name ≠ ""
      rw [effAttr]
      by_cases hal : al = ""
      · simp only [hal, if_pos rfl]
        have hwf := reachable_sources_wf hpr (p.sources.getD si []) (getD_mem [] h1)
        exact hwf.2 _ (getD_mem defaultAttr h2)
      · simp [hal]

theorem reachable_names_nodup {p : BoundMultiSourceProjector} (hr : p.Reachable) :
    (TupleSchema.names p.resultSchema).Nodup := by
  induction hr with
  | init schemas h => simp [empty, TupleSchema.names]
  | @step p q si ap al hpr hstep ih =>
    obtain ⟨h1, h2, h3, hq⟩ := addAs_true_inv hstep
    rw [hq]
    show (TupleSchema.names (p.resultSchema ++ [p.effAttr si ap al])).Nodup
    rw [TupleSchema.names_append, List.nodup_append]
    refine ⟨ih, by simp [TupleSchema.names], ?_⟩
    intro a ha hax
    have : a = (p.effAttr si ap al).name := by
      simpa [TupleSchema.names] using hax
    exact h3 (this ▸ ha)

end BoundMultiSourceProjector

/-- The `DecomposeNth` loop invariant holds of the final state, for every
constructible projector and valid source index. -/
theorem decomposeNth_inv (p : BoundMultiSourceProjector) (k : Nat)
    (hr : p.Reachable) (hk : k < p.sources.length) :
    ∃ st : DecompState, DecomposeNth k p = (st.newP, st.newNth) ∧
      DecompInv p k (p.projectionMap.zip (TupleSchema.names p.resultSchema)) st := by
  have hwfk : TupleSchema.WF (p.sources.getD k []) :=
    BoundMultiSourceProjector.reachable_sources_wf hr _ (getD_mem [] hk)
  refine ⟨(p.projectionMap.zip (TupleSchema.names p.resultSchema)).foldl
    (decomposeStep k)
    ⟨[], BoundMultiSourceProjector.empty p.sources,
     BoundSingleSourceProjector.empty (p.sources.getD k [])⟩, rfl, ?_⟩
  have := decomp_fold_inv p k (BoundMultiSourceProjector.reachable_typeSound hr)
    (BoundMultiSourceProjector.reachable_names_nodup hr)
    (BoundMultiSourceProjector.reachable_names_nonempty hr) hk hwfk
    (p.projectionMap.zip (TupleSchema.names p.resultSchema)) [] _ (by simp)
    (decompInv_init p k)
  simpa using this

/-- For a type-sound projector, every projection-map entry is paired with
its result name in the zipped list that the DecomposeNth loop traverses. -/
theorem zip_names_get (p : BoundMultiSourceProjector) (hty : p.TypeSound)
    {i : Nat} {e : Nat × Nat} (he : p.projectionMap[i]? = some e) :
    ∃ nm, (p.projectionMap.zip (TupleSchema.names p.resultSchema))[i]? = some (e, nm) := by
  have hi : i < p.projectionMap.length := (List.getElem?_eq_some.mp he).1
  have hi2 : i < (TupleSchema.names p.resultSchema).length := by
    rw [TupleSchema.names, List.length_map, hty.1]
    exact hi
  refine ⟨(TupleSchema.names p.resultSchema)[i], ?_⟩
  rw [List.getElem?_zip_eq_some]
  exact ⟨he, List.getElem?_eq_getElem hi2⟩

/-- C2 (amended): DecomposeNth deduplicates, provided every source schema
of P has unique and nonempty attribute names (the `Reachable` hypothesis;
without the nonempty-name proviso a defaulted name collision silently
drops a pass-through entry, see the counterexample).  If result positions
i and j of P both project (k, pos), the inner projector contains pos
exactly once and both entries of the outer projector point at that single
inner output; every entry of another source is passed through with source
index, position and result name unchanged. -/
theorem decomposeNth_deduplicates (p : BoundMultiSourceProjector) (k : Nat)
    (hr : p.Reachable) (hk : k < p.sources.length) :
    (∀ (i j pos : Nat),
      p.projectionMap[i]? = some (k, pos) → p.projectionMap[j]? = some (k, pos) →
      (DecomposeNth k p).2.proj.count pos = 1 ∧
      ∃ q : Nat, (DecomposeNth k p).1.projectionMap[i]? = some (k, q) ∧
        (DecomposeNth k p).1.projectionMap[j]? = some (k, q) ∧
        (DecomposeNth k p).2.proj[q]? = some pos) ∧
    (∀ (i : Nat) (e : Nat × Nat), p.projectionMap[i]? = some e → e.1 ≠ k →
      (DecomposeNth k p).1.projectionMap[i]? = some e ∧
      (TupleSchema.names (DecomposeNth k p).1.resultSchema)[i]? =
        (TupleSchema.names p.resultSchema)[i]?) := by
  obtain ⟨st, hD, hinv⟩ := decomposeNth_inv p k hr hk
  have hty := BoundMultiSourceProjector.reachable_typeSound hr
  rw [hD]
  constructor
  · intro i j pos hi hj
    obtain ⟨nmi, hEi⟩ := zip_names_get p hty hi
    obtain ⟨nmj, hEj⟩ := zip_names_get p hty hj
    obtain ⟨pei, hpi1, -, hpi3⟩ := hinv.p_map i ((k, pos), nmi) hEi
    obtain ⟨pej, hpj1, -, hpj3⟩ := hinv.p_map j ((k, pos), nmj) hEj
    obtain ⟨hpik, hpi2⟩ := hpi3 rfl
    obtain ⟨hpjk, hpj2⟩ := hpj3 rfl
    have hq1 := List.getElem?_eq_some.mp hpi2
    have hq2 := List.getElem?_eq_some.mp hpj2
    have hqeq : pei.2 = pej.2 :=
      (List.Nodup.getElem_inj_iff hinv.nth_nodup).mp (hq1.2.trans hq2.2.symm)
    refine ⟨List.count_eq_one_of_mem hinv.nth_nodup (List.getElem?_mem hpi2),
      pei.2, ?_, ?_, hpi2⟩
    · rw [show ((k, pei.2) : Nat × Nat) = pei from by rw [← hpik]]
      exact hpi1
    · rw [show ((k, pei.2) : Nat × Nat) = pej from by rw [← hpjk, hqeq]]
      exact hpj1
  · intro i e he hek
    obtain ⟨nm, hEi⟩ := zip_names_get p hty he
    obtain ⟨pe, h1, h2, -⟩ := hinv.p_map i (e, nm) hEi
    have hpe : pe = e := h2 hek
    refine ⟨by rw [← hpe]; exact h1, ?_⟩
    have hlen1 : (TupleSchema.names p.resultSchema).length ≤ p.projectionMap.length := by
      rw [TupleSchema.names, List.length_map, hty.1]
    have hEsnd : (p.projectionMap.zip (TupleSchema.names p.resultSchema)).map Prod.snd =
        TupleSchema.names p.resultSchema :=
      List.map_snd_zip _ _ hlen1
    rw [hinv.p_names, hEsnd]

/-- C1 (amended): decomposition is observationally equivalent, provided
every source schema of P has unique and nonempty attribute names (the
`Reachable` hypothesis; without the nonempty-name proviso a defaulted
name collision silently drops an outer entry and the equivalence fails,
see the counterexample).  For every such P, valid source index k and one
input view per source, applying P equals applying the inner projector Q
to the k-th view and the outer projector P' to the inputs with the k-th
view replaced by Q's output. -/
theorem decomposeNth_equivalence {α : Type} [Inhabited α]
    (p : BoundMultiSourceProjector) (k : Nat)
    (hr : p.Reachable) (hk : k < p.sources.length)
    (inputs : List (List α)) (hlen : inputs.length = p.sources.length) :
    BoundMultiSourceProjector.apply p inputs =
      BoundMultiSourceProjector.apply (DecomposeNth k p).1
        (inputs.set k (BoundSingleSourceProjector.apply (DecomposeNth k p).2
          (inputs.getD k []))) := by
  obtain ⟨st, hD, hinv⟩ := decomposeNth_inv p k hr hk
  have hty := BoundMultiSourceProjector.reachable_typeSound hr
  rw [hD]
  apply List.ext_getElem?
  intro i
  rw [BoundMultiSourceProjector.apply, BoundMultiSourceProjector.apply,
    List.getElem?_map, List.getElem?_map]
  cases hpi : p.projectionMap[i]? with
  | none =>
    have hi : p.projectionMap.length ≤ i := by
      by_contra hcon
      push_neg at hcon
      rw [List.getElem?_eq_getElem hcon] at hpi
      cases hpi
    have hi2 : st.newP.projectionMap[i]? = none := by
      apply List.getElem?_eq_none
      rw [hinv.p_len, List.length_zip, TupleSchema.names, List.length_map, hty.1,
        Nat.min_self]
      exact hi
    rw [hi2]
    rfl
  | some e =>
    obtain ⟨nm, hEi⟩ := zip_names_get p hty hpi
    obtain ⟨pe, h1, h2, h3⟩ := hinv.p_map i (e, nm) hEi
    rw [h1]
    simp only [Option.map_some']
    by_cases hek : e.1 = k
    · obtain ⟨hpe1, hpe2⟩ := h3 hek
      have hkin : k < inputs.length := by
        rw [hlen]
        exact hk
      have hgetk : ((inputs.set k (BoundSingleSourceProjector.apply st.newNth
          (inputs.getD k []))).getD pe.1 []) =
          BoundSingleSourceProjector.apply st.newNth (inputs.getD k []) := by
        rw [hpe1, List.getD_eq_getElem?_getD, List.getElem?_set_self hkin]
        rfl
      rw [hgetk]
      have happ : (BoundSingleSourceProjector.apply st.newNth
          (inputs.getD k []))[pe.2]? = some ((inputs.getD k []).getD e.2 default) := by
        rw [BoundSingleSourceProjector.apply, List.getElem?_map, hpe2]
        rfl
      rw [List.getD_eq_getElem?_getD (BoundSingleSourceProjector.apply
        st.newNth (inputs.getD k [])) pe.2 default, happ]
      rw [hek]
      rfl
    · rw [h2 hek]
      have hgets : ((inputs.set k (BoundSingleSourceProjector.apply st.newNth
          (inputs.getD k []))).getD e.1 []) = inputs.getD e.1 [] := by
        rw [List.getD_eq_getElem?_getD, List.getD_eq_getElem?_getD,
          List.getElem?_set_ne (fun hc => hek hc.symm)]
        rw [List.getD_eq_getElem?_getD]
      rw [hgets]

/-! ### Concrete instances -/

/-- Two demo source schemas (col0, col1) and (col2, col3). -/
def demoSchemas : List TupleSchema :=
  [[⟨"col0", .STRING, .NOT_NULLABLE⟩, ⟨"col1", .INT32, .NULLABLE⟩],
   [⟨"col2", .DOUBLE, .NOT_NULLABLE⟩, ⟨"col3", .INT32, .NOT_NULLABLE⟩]]

/-- Fresh demo projector over the demo schemas. -/
def demoP0 : BoundMultiSourceProjector := BoundMultiSourceProjector.empty demoSchemas

/-- Demo projector after AddAs(0, 1, "a"). -/
def demoP1 : BoundMultiSourceProjector := (demoP0.AddAs 0 1 "a").2

/-- Demo projector after a further AddAs(1, 0, "b"). -/
def demoP2 : BoundMultiSourceProjector := (demoP1.AddAs 1 0 "b").2

/-- Demo projector projecting (0,1), (1,0) and (0,1) again — the same
source attribute twice. -/
def demoP : BoundMultiSourceProjector := (demoP2.AddAs 0 1 "c").2

theorem demoP_reachable : demoP.Reachable :=
  @BoundMultiSourceProjector.Reachable.step demoP2 demoP 0 1 "c"
    (@BoundMultiSourceProjector.Reachable.step demoP1 demoP2 1 0 "b"
      (@BoundMultiSourceProjector.Reachable.step demoP0 demoP1 0 1 "a"
        (BoundMultiSourceProjector.Reachable.init demoSchemas (by decide))
        (by decide))
      (by decide))
    (by decide)

/-- Demo input views: one column list per source. -/
def demoInputs : List (List Nat) := [[10, 20], [30, 40]]

/-- A one-attribute demo schema. -/
def demoS : TupleSchema := [⟨"col0", .INT32, .NOT_NULLABLE⟩]

/-- A two-attribute demo schema with col0 and col1. -/
def demoS2 : TupleSchema :=
  [⟨"col0", .STRING, .NOT_NULLABLE⟩, ⟨"col1", .INT32, .NULLABLE⟩]

/-- The compound of two NamedAttribute("col1") projectors. -/
def demoCompound : List SingleSourceProjector :=
  [.namedAttribute "col1", .namedAttribute "col1"]

/-- The identity bound projector over demoS2 (what AllAttributes binds to). -/
def demoBC : BoundSingleSourceProjector := ⟨demoS2, demoS2, [0, 1]⟩

/-! ### Decomposition counterexamples (empty-named attributes) -/

/-- A unique-name schema containing an empty-named attribute (the spec
requires only uniqueness of names, so this schema is legal). -/
def cexSchema : TupleSchema :=
  [⟨"a", .INT32, .NOT_NULLABLE⟩, ⟨"", .INT32, .NOT_NULLABLE⟩]

/-- A projector over [cexSchema] built from two successful AddAs calls
with empty aliases: its result names are "" and "a", both defaulted from
the source attributes. -/
def cexP : BoundMultiSourceProjector :=
  (((BoundMultiSourceProjector.empty [cexSchema]).AddAs 0 1 "").2.AddAs 0 0 "").2

/-- A one-source input tuple for cexP. -/
def cexInputs : List (List Nat) := [[10, 20]]

/-- Two source schemas, the first containing an empty-named attribute;
all names are unique within each schema. -/
def cex2Schemas : List TupleSchema :=
  [[⟨"b", .INT32, .NOT_NULLABLE⟩, ⟨"", .INT32, .NOT_NULLABLE⟩],
   [⟨"b", .INT32, .NOT_NULLABLE⟩]]

/-- A projector over cex2Schemas built from two successful AddAs calls
with empty aliases, projecting (0,1) and then (1,0). -/
def cex2P : BoundMultiSourceProjector :=
  (((BoundMultiSourceProjector.empty cex2Schemas).AddAs 0 1 "").2.AddAs 1 0 "").2

/-- C1 counterexample: cexP is built from two successful AddAs calls over
a unique-name schema, yet applying it to concrete inputs differs from the
decomposed pipeline — while rebuilding the outer projector, DecomposeNth
passes the empty result name to AddAs, which defaults it to the name of
the source attribute at the rewritten position; the resulting collision
makes the discarded AddAs fail and drops an output column ([20, 10]
against [20]).  This refutes the claim as stated, quantified over every
BoundMultiSourceProjector. -/
theorem decomposeNth_equivalence_counterexample :
    ((BoundMultiSourceProjector.empty [cexSchema]).AddAs 0 1 "").1 = true ∧
    (((BoundMultiSourceProjector.empty [cexSchema]).AddAs 0 1 "").2.AddAs 0 0 "").1 = true ∧
    (TupleSchema.names cexSchema).Nodup ∧
    BoundMultiSourceProjector.apply cexP cexInputs ≠
      BoundMultiSourceProjector.apply (DecomposeNth 0 cexP).1
        (cexInputs.set 0 (BoundSingleSourceProjector.apply (DecomposeNth 0 cexP).2
          (cexInputs.getD 0 []))) := by
  decide

/-- C2 counterexample: cex2P is built from two successful AddAs calls
over unique-name schemas and its result position 1 projects (1, 0) — a
source other than k = 0 — yet after DecomposeNth(0, ·) the outer
projector has no entry at position 1 at all: the pass-through AddAs
received the empty result name, defaulted it to "b", collided with the
rebuilt source-0 entry's defaulted name and was silently dropped.  This
refutes "every result position of P whose source index is not k appears
in P' unchanged" as stated. -/
theorem decomposeNth_deduplicates_counterexample :
    ((BoundMultiSourceProjector.empty cex2Schemas).AddAs 0 1 "").1 = true ∧
    (((BoundMultiSourceProjector.empty cex2Schemas).AddAs 0 1 "").2.AddAs 1 0 "").1 = true ∧
    (∀ s ∈ cex2Schemas, (TupleSchema.names s).Nodup) ∧
    cex2P.projectionMap[1]? = some (1, 0) ∧
    (DecomposeNth 0 cex2P).1.projectionMap[1]? = none := by
  decide

/-! ### Witnesses -/

theorem decomposeNth_equivalence_witness :
    BoundMultiSourceProjector.apply demoP demoInputs =
      BoundMultiSourceProjector.apply (DecomposeNth 0 demoP).1
        (demoInputs.set 0 (BoundSingleSourceProjector.apply (DecomposeNth 0 demoP).2
          (demoInputs.getD 0 []))) :=
  decomposeNth_equivalence demoP 0 demoP_reachable (by decide) demoInputs (by decide)

theorem decomposeNth_deduplicates_witness :
    (DecomposeNth 0 demoP).2.proj.count 1 = 1 ∧
    ∃ q : Nat, (DecomposeNth 0 demoP).1.projectionMap[0]? = some (0, q) ∧
      (DecomposeNth 0 demoP).1.projectionMap[2]? = some (0, q) ∧
      (DecomposeNth 0 demoP).2.proj[q]? = some 1 :=
  (decomposeNth_deduplicates demoP 0 demoP_reachable (by decide)).1 0 2 1
    (by decide) (by decide)

theorem projection_observers_agree_witness :
    (demoP.IsAttributeProjected 0 1 = true ↔
      0 < demoP.NumberOfProjectionsForAttribute 0 1) ∧
    (demoP.IsAttributeProjected 0 1 = true ↔
      demoP.ProjectedAttributePositions 0 1 ≠ []) :=
  projection_observers_agree demoP 0 1 demoP_reachable (by decide) (by decide)

theorem projectors_preserve_type_and_nullability_witness : demoP.TypeSound :=
  projectors_preserve_type_and_nullability.1 demoP demoP_reachable

theorem positionedAttribute_bind_cases_witness :
    SingleSourceProjector.Bind (.positionedAttribute 0) demoS =
      .ok ⟨demoS, [demoS.getD (0 : Int).toNat defaultAttr], [(0 : Int).toNat]⟩ :=
  (positionedAttribute_bind_cases 0 demoS).2.1 (by decide) (by decide)

theorem compound_duplicate_names_attribute_exists_witness :
    SingleSourceProjector.Bind (.compound demoCompound) demoS2 =
      .err .ATTRIBUTE_EXISTS :=
  compound_duplicate_names_attribute_exists demoCompound demoS2 (by decide) (by decide)

theorem renaming_bind_spec_witness :
    ∃ bp, SingleSourceProjector.Bind
        (.renamingProjector ["x", "y"] (.allAttributes "")) demoS2 = .ok bp ∧
      TupleSchema.names bp.resultSchema = ["x", "y"] ∧ bp.proj = demoBC.proj :=
  (renaming_bind_spec ["x", "y"] (.allAttributes "") demoS2 demoBC
    (by decide) (by decide)).1 (by decide)

theorem addAs_empty_alias_defaults_witness :
    TupleSchema.names (demoP.AddAs 1 1 "").2.resultSchema =
      TupleSchema.names demoP.resultSchema ++
        [((demoP.sources.getD 1 []).getD 1 defaultAttr).name] :=
  addAs_empty_alias_defaults demoP 1 1 (by decide) (by decide) (by decide)

theorem addAs_atomic_on_failure_witness :
    (demoP.AddAs 1 1 "a").2.resultSchema = demoP.resultSchema ∧
    (demoP.AddAs 1 1 "a").2.projectionMap = demoP.projectionMap ∧
    (demoP.AddAs 1 1 "a").2.reverseProjectionMap = demoP.reverseProjectionMap :=
  addAs_atomic_on_failure demoP 1 1 "a" (by decide)

end Supersonic
